import Mathlib

/-!
Shallow embedding of `src/fftvis/simulate.py` (functions `simulate_vis`,
`simulate`, `simulate_basis`) together with the pieces of this repository
that those functions use but that are not present under `src/`
(`utils.get_pos_reds`, `utils.speed_of_light`), which are modelled from the
specification.

Modelling conventions:
* Python floats are modelled as rationals (`ℚ`); complex visibility values
  are modelled as `ℂ`.  The precision levels of the source select machine
  widths only, so in this model they do not change any value; the dtype
  selection of lines 142-147 is still embedded (`simDtypes`) because a claim
  is about it.
* Antenna identifiers are the natural numbers `0, ..., nants-1`; the antenna
  position dictionary becomes a total function together with the count
  `nants`, and a dictionary lookup of a missing key (a Python `KeyError`)
  becomes `none` via a bounds check at exactly the places the source
  performs a lookup.
* The external collaborators of the spec (§1, §6) - beam evaluation
  (`beams._evaluate_beam` after `conversions.prepare_beam`), the coordinate
  conversions of `matvis.conversions`, and the `finufft` type-3 transforms -
  are fields of a `Collab` structure that the embedded functions take as an
  argument.  Theorems that depend on what the transform computes take the
  hypothesis that the transform field equals `nufft2d3Spec`, the exact
  type-3 sum (the spec, §4.4, asks only for numerical equivalence of a
  transform of this type; the exact sum is its idealisation).
* `numpy` array operations are embedded index-wise: arrays are (curried)
  functions from indices, `np.add.at` becomes a fold performing additive
  updates, slice assignment `vis[ti] = _vis` becomes `npAssignCompact`
  including the broadcast-validity check numpy performs, and the final
  `np.transpose`/`np.moveaxis` calls become explicit reindexings.
-/

namespace FFTVis

/-- A 3x3 rotation matrix (one entry of `eq2tops`), stored as three rows,
each an `(x, y, z)` triple of rationals. -/
def Mat3 : Type := (ℚ × ℚ × ℚ) × (ℚ × ℚ × ℚ) × (ℚ × ℚ × ℚ)

/-- The all-zero 3x3 matrix, used as the out-of-range default. -/
def mat3Zero : Mat3 := ((0, 0, 0), (0, 0, 0), (0, 0, 0))

/-- Dot product of a matrix row with a coordinate triple. -/
def dot3 (r : ℚ × ℚ × ℚ) (c : ℚ × ℚ × ℚ) : ℚ :=
  r.1 * c.1 + r.2.1 * c.2.1 + r.2.2 * c.2.2

/-- Modelled from the spec: `utils.speed_of_light` is not under `src/`;
the spec (§4.4 step 1) divides baseline coordinates by the speed of light,
whose SI value is used here. -/
def speed_of_light : ℚ := 299792458

/-- The concrete dtypes of the source (lines 142-147 select among these). -/
inductive Dtype
  | f32
  | c64
  | f64
  | c128
deriving DecidableEq

/-- Lines 142-147 of `simulate`: precision 1 selects `(float32, complex64)`
and every other precision value selects `(float64, complex128)`; there is no
validation branch. -/
def simDtypes (precision : ℤ) : Dtype × Dtype :=
  if precision = 1 then (Dtype.f32, Dtype.c64) else (Dtype.f64, Dtype.c128)

/-- Lines 10-13: the module-level `default_accuracy_dict`.  A Python dict
lookup of a key outside `{1, 2}` raises `KeyError`, modelled as `none`. -/
def default_accuracy_dict (precision : ℤ) : Option ℚ :=
  if precision = 1 then some (6 / 100000000)
  else if precision = 2 then some (1 / 1000000000000)
  else none

/-- Truthiness of the `baselines` argument: Python `not baselines` is true
for both `None` and the empty list (lines 150 and 313). -/
def blsFalsy : Option (List (ℕ × ℕ)) → Bool
  | none => true
  | some l => l.isEmpty

/-- The 2-D baseline vector of an ordered antenna pair:
`(antpos[b] - antpos[a])[:2]` (lines 172-174 and 331-333 keep only the
first two components of the position difference). -/
def blVec2 (antpos : ℕ → ℚ × ℚ × ℚ) (bl : ℕ × ℕ) : ℚ × ℚ :=
  ((antpos bl.2).1 - (antpos bl.1).1, (antpos bl.2).2.1 - (antpos bl.1).2.1)

/-- Modelled from the spec: the enumeration order of ordered antenna pairs
used by `utils.get_pos_reds` (absent from `src/`).  Per §4.1 the grouper
partitions all ordered antenna pairs, optionally including the auto pairs
`(a, a)`; each unordered pair appears once, in ascending orientation, with
the reversed pair handled implicitly via conjugation (§3, RedundantGroup).
Pairs are enumerated with the first index outermost, and for each first
index the auto pair (when included) precedes the strictly ascending pairs. -/
def pairList (n : ℕ) (include_autos : Bool) : List (ℕ × ℕ) :=
  (List.range n).flatMap fun i =>
    ((List.range n).filter fun j => i < j || (include_autos && i == j)).map
      fun j => (i, j)

/-- Modelled from the spec: representative selection of `utils.get_pos_reds`
(§4.1: stable, first-encountered representative per baseline-vector class).
Keeps the first pair of each 2-D baseline-vector equivalence class, in
enumeration order.  The numeric tolerance for vector equality is left open
by the spec (§9); exact equality is the tolerance chosen here. -/
def dedupByVec (ap : ℕ → ℚ × ℚ × ℚ) : List (ℕ × ℕ) → List (ℕ × ℕ)
  | [] => []
  | p :: rest =>
      p :: dedupByVec ap (rest.filter fun q => blVec2 ap q ≠ blVec2 ap p)
termination_by l => l.length
decreasing_by
  simp only [List.length_cons]
  exact Nat.lt_succ_of_le (List.length_filter_le _ rest)

/-- Modelled from the spec: `utils.get_pos_reds` is code of this repository
that is not under `src/`.  Contract (§4.1): partition all antenna pairs
(optionally including autos) into groups sharing the same 2-D baseline
vector; each group lists its members in enumeration order and its first
member is the representative (`red[0]` in the source).  The source calls it
as `get_pos_reds(antpos, include_autos=True)` in `simulate` (line 151) and
as `get_pos_reds(antpos)` in `simulate_basis` (line 314); the explicit
keyword in the first call indicates the parameter defaults to excluding
autos, which is how the `simulate_basis` call is modelled. -/
def get_pos_reds (n : ℕ) (ap : ℕ → ℚ × ℚ × ℚ) (include_autos : Bool) :
    List (List (ℕ × ℕ)) :=
  (dedupByVec ap (pairList n include_autos)).map fun r =>
    (pairList n include_autos).filter fun m => blVec2 ap m = blVec2 ap r

/-- The external collaborators consumed by the engine (spec §6).  These are
out-of-scope services (§1): beam evaluation, coordinate conversion, and the
non-uniform type-3 Fourier transforms of `finufft`.  `beamEval` is the
per-direction complex gain `beams._evaluate_beam` fills into `A_s`
(axis index, feed index, azimuth, zenith angle, frequency), already for the
beam prepared by `conversions.prepare_beam`.  `azza` is
`conversions.enu_to_az_za` for one direction.  `nufft2d3 x y c u v eps` is
`finufft.nufft2d3`, with `c` a stacked weight matrix (row index, source
index) and result (row index, target index); `nufft3d3` is the 3-D variant
with flat weight and result vectors. -/
structure Collab where
  beamEval : ℕ → ℕ → ℚ → ℚ → ℚ → ℂ
  azza : ℚ → ℚ → ℚ × ℚ
  nufft2d3 : List ℝ → List ℝ → (ℕ → ℕ → ℂ) → List ℝ → List ℝ → ℚ → (ℕ → ℕ → ℂ)
  nufft3d3 : List ℝ → List ℝ → List ℝ → (ℕ → ℂ) → List ℝ → List ℝ → List ℝ → ℚ →
    (ℕ → ℂ)
  pointSourceCrdEq : List ℚ → List ℚ → ℕ → ℚ × ℚ × ℚ
  eciToEnuMatrix : ℚ → ℚ → Mat3

/-- The exact type-3 non-uniform discrete Fourier sum: the idealisation of
`finufft.nufft2d3` the spec asks for (§4.4: a type-3 transform of the given
points and weights; the accuracy argument only bounds the approximation
error, and the exact sum is the accuracy-zero limit).  Row `r`, target `k`:
the sum over sources `j` of `c r j * exp(i * (u_k * x_j + v_k * y_j))`. -/
noncomputable def nufft2d3Spec (x y : List ℝ) (c : ℕ → ℕ → ℂ)
    (u v : List ℝ) (_eps : ℚ) : ℕ → ℕ → ℂ :=
  fun r k =>
    ∑ j ∈ Finset.range x.length,
      c r j *
        Complex.exp (Complex.I * (u.getD k 0 * x.getD j 0 + v.getD k 0 * y.getD j 0))

/-- The per-call inputs of `simulate` that are plain data: antenna count and
positions (the `antpos` dict), source count, per-source per-frequency
intensities (`sources`), equatorial source coordinates (`crd_eq`, one column
per source), per-time rotation matrices (`eq2tops`) and the frequency list. -/
structure SimInputs where
  nants : ℕ
  antpos : ℕ → ℚ × ℚ × ℚ
  nsrc : ℕ
  sources : ℕ → ℕ → ℚ
  crd_eq : ℕ → ℚ × ℚ × ℚ
  eq2tops : List Mat3
  freqs : List ℚ

/-- Line 187: topocentric coordinates of source `j` at time `ti`,
`np.dot(eq2top, crd_eq)` column by column. -/
def txyz (inp : SimInputs) (ti j : ℕ) : ℚ × ℚ × ℚ :=
  let m := inp.eq2tops.getD ti mat3Zero
  (dot3 m.1 (inp.crd_eq j), dot3 m.2.1 (inp.crd_eq j), dot3 m.2.2 (inp.crd_eq j))

/-- The `tx` row (east components) at time `ti`, over all sources. -/
def txList (inp : SimInputs) (ti : ℕ) : List ℚ :=
  (List.range inp.nsrc).map fun j => (txyz inp ti j).1

/-- The `ty` row (north components) at time `ti`, over all sources. -/
def tyList (inp : SimInputs) (ti : ℕ) : List ℚ :=
  (List.range inp.nsrc).map fun j => (txyz inp ti j).2.1

/-- The `tz` row (up components) at time `ti`, over all sources. -/
def tzList (inp : SimInputs) (ti : ℕ) : List ℚ :=
  (List.range inp.nsrc).map fun j => (txyz inp ti j).2.2

/-- Line 190: the boolean horizon mask `above_horizon = tz > 0`. -/
def aboveHorizon (inp : SimInputs) (ti : ℕ) : List Bool :=
  (tzList inp ti).map fun z => decide (0 < z)

/-- Boolean-mask selection, the numpy idiom `xs[mask]`: keep the entries of
`xs` at the positions where `mask` holds `true`. -/
def boolSelect {α : Type} (xs : List α) (m : List Bool) : List α :=
  ((xs.zip m).filter fun pm => pm.2).map fun pm => pm.1

/-- Line 191: `tx = tx[above_horizon]`. -/
def txSel (inp : SimInputs) (ti : ℕ) : List ℚ :=
  boolSelect (txList inp ti) (aboveHorizon inp ti)

/-- Line 192: `ty = ty[above_horizon]`. -/
def tySel (inp : SimInputs) (ti : ℕ) : List ℚ :=
  boolSelect (tyList inp ti) (aboveHorizon inp ti)

/-- The original source indices selected by the horizon mask; the source
uses the mask directly (`Isky[above_horizon, fi]`), which selects exactly
these rows in this order. -/
def selIdx (inp : SimInputs) (ti : ℕ) : List ℕ :=
  boolSelect (List.range inp.nsrc) (aboveHorizon inp ti)

/-- Line 195: `nsim_sources = above_horizon.sum()`, the number of selected
sources. -/
def nsimSources (inp : SimInputs) (ti : ℕ) : ℕ :=
  ((aboveHorizon inp ti).filter fun b => b).length

/-- Line 169: `Isky = (0.5 * sources).astype(complex_dtype)`; the factor
0.5 splits the Stokes intensity across the two feed channels. -/
noncomputable def Isky (inp : SimInputs) (j fi : ℕ) : ℂ :=
  ((0.5 * inp.sources j fi : ℚ) : ℂ)

/-- Lines 137-140: `nax = nfeeds = 2` when polarized else `1`. -/
def nfeedsOf (polarized : Bool) : ℕ := if polarized then 2 else 1

/-- Line 203 composed with line 216: the az/za pair of selected source `jj`
at time `ti` via the `enu_to_az_za` collaborator. -/
def azzaOf (cl : Collab) (inp : SimInputs) (ti jj : ℕ) : ℚ × ℚ :=
  cl.azza ((txSel inp ti).getD jj 0) ((tySel inp ti).getD jj 0)

/-- Lines 215-218: the beam response array `A_s[ax, feed, jj]` (the
singleton beam axis of the source already dropped by `[..., 0, :]`),
evaluated by the external beam collaborator at the per-source az/za of
time `ti` and the frequency of channel `fi`. -/
def beamAs0 (cl : Collab) (inp : SimInputs) (ti fi : ℕ) : ℕ → ℕ → ℕ → ℂ :=
  fun a f jj =>
    cl.beamEval a f (azzaOf cl inp ti jj).1 (azzaOf cl inp ti jj).2
      (inp.freqs.getD fi 0)

/-- Line 219: `A_s = np.flipud(A_s)` reverses the leading (axis) axis,
whose length is `nax = nfeeds`. -/
def beamAs1 (cl : Collab) (inp : SimInputs) (polarized : Bool) (ti fi : ℕ) :
    ℕ → ℕ → ℕ → ℂ :=
  fun a f jj => beamAs0 cl inp ti fi (nfeedsOf polarized - 1 - a) f jj

/-- Line 220: `A_s = np.reshape(A_s, (nax * nfeeds, nsim_sources))`,
row-major flattening of the two feed axes. -/
def beamAsFlat (cl : Collab) (inp : SimInputs) (polarized : Bool) (ti fi : ℕ) :
    ℕ → ℕ → ℂ :=
  fun r jj =>
    beamAs1 cl inp polarized ti fi (r / nfeedsOf polarized)
      (r % nfeedsOf polarized) jj

/-- Line 223: `i_sky = A_s * A_s.conj() * Isky[above_horizon, fi]`, the
stacked complex weight matrix handed to the transform (row `r`, selected
source `jj`). -/
noncomputable def iSky (cl : Collab) (inp : SimInputs) (polarized : Bool) (ti fi : ℕ) :
    ℕ → ℕ → ℂ :=
  fun r jj =>
    beamAsFlat cl inp polarized ti fi r jj *
      (starRingEnd ℂ) (beamAsFlat cl inp polarized ti fi r jj) *
      Isky inp ((selIdx inp ti).getD jj 0) fi

/-- Lines 172-174: the per-baseline 2-D vectors, via the `antpos` dict;
a reference to an antenna outside the dictionary is a `KeyError` (`none`). -/
def blxyOf (inp : SimInputs) : List (ℕ × ℕ) → Option (List (ℚ × ℚ))
  | [] => some []
  | bl :: rest =>
      if bl.1 < inp.nants ∧ bl.2 < inp.nants then
        (blxyOf inp rest).map fun l => blVec2 inp.antpos bl :: l
      else none

/-- Lines 209-212: the `u` coordinates `blx * freq / speed_of_light` of all
baselines, as the real numbers handed to the transform. -/
def uList (blxy : List (ℚ × ℚ)) (freq : ℚ) : List ℝ :=
  blxy.map fun b => ((b.1 * freq / speed_of_light : ℚ) : ℝ)

/-- Lines 209-212: the `v` coordinates `bly * freq / speed_of_light`. -/
def vList (blxy : List (ℚ × ℚ)) (freq : ℚ) : List ℝ :=
  blxy.map fun b => ((b.2 * freq / speed_of_light : ℚ) : ℝ)

/-- Line 227: the first positional transform argument `2 * np.pi * tx`. -/
noncomputable def xArg (inp : SimInputs) (ti : ℕ) : List ℝ :=
  (txSel inp ti).map fun t : ℚ => 2 * Real.pi * (t : ℝ)

/-- Line 228: the second positional transform argument `2 * np.pi * ty`. -/
noncomputable def yArg (inp : SimInputs) (ti : ℕ) : List ℝ :=
  (tySel inp ti).map fun t : ℚ => 2 * Real.pi * (t : ℝ)

/-- Lines 207-237: the per-time compact visibility array
`_vis[p, q, bi, fi]`: for each frequency the transform output row
`p * nfeeds + q` at target baseline `bi` (the `v.reshape(nfeeds, nfeeds,
nbls)` of line 237 read back index-wise). -/
noncomputable def visCompactT (cl : Collab) (inp : SimInputs) (polarized : Bool)
    (blxy : List (ℚ × ℚ)) (accuracy : ℚ) (ti : ℕ) : ℕ → ℕ → ℕ → ℕ → ℂ :=
  fun p q bi fi =>
    cl.nufft2d3 (xArg inp ti) (yArg inp ti) (iSky cl inp polarized ti fi)
      (uList blxy (inp.freqs.getD fi 0)) (vList blxy (inp.freqs.getD fi 0))
      accuracy (p * nfeedsOf polarized + q) bi

/-- Unbuffered additive writes, the numpy idiom
`np.add.at(arr, (rows0, rows1), x)`: for every target pair in `targets`
(repeats included) add the payload `x` to the cell it names.  Payloads are
values of an additive monoid so that whole trailing slices (functions of the
remaining indices) can be added at once, exactly as the source adds the
slice `_vis[..., bi, :]`. -/
def addAt2 {β : Type} [AddCommMonoid β] (slice : ℕ → ℕ → β)
    (targets : List (ℕ × ℕ)) (x : β) : ℕ → ℕ → β :=
  targets.foldl
    (fun s m => fun a b => if a = m.1 ∧ b = m.2 then s a b + x else s a b)
    slice

/-- Lines 240-254 of `simulate`, one time sample: for each representative
baseline `bi` (the loop `for bi, bls in enumerate(baselines)`), add the
per-feed slice of `_vis` at every member pair of its redundant group, and,
when the representative is not an auto pair (`bls[0] != bls[1]`), add the
conjugate slice at every reversed member pair.  The slice is the
antenna-by-antenna plane of `vis` at this time; payload index order is
`(p, q, fi)`. -/
noncomputable def expandFoldSim (enumGroups : List (ℕ × List (ℕ × ℕ)))
    (visT : ℕ → ℕ → ℕ → ℕ → ℂ) (slice : ℕ → ℕ → ℕ → ℕ → ℕ → ℂ) :
    ℕ → ℕ → ℕ → ℕ → ℕ → ℂ :=
  enumGroups.foldl
    (fun s g =>
      let bls := g.2.headD (0, 0)
      let s1 := addAt2 s g.2 fun p q fi => visT p q g.1 fi
      if bls.1 ≠ bls.2 then
        addAt2 s1 (g.2.map fun m => (m.2, m.1)) fun p q fi =>
          (starRingEnd ℂ) (visT p q g.1 fi)
      else s1)
    slice

/-- Specialisation of `expandFoldSim` to the enumerated group list, which is
how the source iterates (`for bi, bls in enumerate(baselines)` with
`bl_to_red_map[bls]` the group whose representative is `bls`). -/
noncomputable def expandStepSim (reds : List (List (ℕ × ℕ)))
    (visT : ℕ → ℕ → ℕ → ℕ → ℂ) (slice : ℕ → ℕ → ℕ → ℕ → ℕ → ℂ) :
    ℕ → ℕ → ℕ → ℕ → ℕ → ℂ :=
  expandFoldSim reds.enum visT slice

/-- Lines 185-254, full-expansion mode: the time loop over `eq2tops`,
starting from the zero array of line 178 and expanding each time sample's
compact visibilities into its antenna-by-antenna plane.  Index order is the
source array layout `vis[ti][a][b][p][q][fi]`. -/
noncomputable def visLoopExpand (cl : Collab) (inp : SimInputs) (polarized : Bool)
    (reds : List (List (ℕ × ℕ))) (blxy : List (ℚ × ℚ)) (accuracy : ℚ) :
    ℕ → ℕ → ℕ → ℕ → ℕ → ℕ → ℂ :=
  (List.range inp.eq2tops.length).foldl
    (fun vis ti => fun t =>
      if t = ti then
        expandStepSim reds (visCompactT cl inp polarized blxy accuracy ti) (vis ti)
      else vis t)
    fun _ _ _ _ _ _ => 0

/-- Line 256, compact mode: the numpy slice assignment `vis[ti] = _vis`.
The left slice has shape `(nbls, nfeeds, nfeeds, nfreqs)` while `_vis` has
shape `(nfeeds, nfeeds, nbls, nfreqs)`; numpy broadcasts the right side to
the left shape, which requires every right-hand dimension to be 1 or to
equal the corresponding left-hand dimension, and raises `ValueError`
(modelled as `none`) otherwise.  A size-1 right-hand dimension is indexed
at 0 regardless of the left index. -/
def npAssignCompact (nbls nf : ℕ) (vis : ℕ → ℕ → ℕ → ℕ → ℕ → ℂ) (ti : ℕ)
    (visT : ℕ → ℕ → ℕ → ℕ → ℂ) : Option (ℕ → ℕ → ℕ → ℕ → ℕ → ℂ) :=
  if (nf = nbls ∨ nf = 1) ∧ (nbls = nf ∨ nbls = 1) then
    some fun t b p q fi =>
      if t = ti then
        visT (if nf = 1 then 0 else b) (if nf = 1 then 0 else p)
          (if nbls = 1 then 0 else q) fi
      else vis t b p q fi
  else none

/-- Lines 185-237 and 256, compact mode: the time loop writing each time
sample's `_vis` into `vis[ti]`, with the broadcast failure of line 256
propagated.  Index order is the source layout `vis[ti][b][p][q][fi]`. -/
noncomputable def visLoopCompact (cl : Collab) (inp : SimInputs) (polarized : Bool)
    (blxy : List (ℚ × ℚ)) (accuracy : ℚ) (nbls : ℕ) :
    Option (ℕ → ℕ → ℕ → ℕ → ℕ → ℂ) :=
  (List.range inp.eq2tops.length).foldlM
    (fun vis ti =>
      npAssignCompact nbls (nfeedsOf polarized) vis ti
        (visCompactT cl inp polarized blxy accuracy ti))
    fun _ _ _ _ _ => 0

/-- The four result layouts of `simulate` (lines 258-269).  Index order of
each constructor's function follows the source's returned axis order:
frequency, time, then (when polarized) feed, feed, then antenna-antenna
(expanded) or requested-baseline (compact). -/
inductive VisOut
  | expandPol (v : ℕ → ℕ → ℕ → ℕ → ℕ → ℕ → ℂ)
  | expandUnpol (v : ℕ → ℕ → ℕ → ℕ → ℂ)
  | compactPol (v : ℕ → ℕ → ℕ → ℕ → ℕ → ℂ)
  | compactUnpol (v : ℕ → ℕ → ℕ → ℂ)

/-- Lines 88-269: the main engine `simulate`.  Lines 149-158 choose between
full expansion (`baselines` falsy: group all pairs redundantly, take the
representatives) and compact mode (use the given baselines as they are).
Lines 258-269 reorder axes for the return value: `np.transpose(vis,
(5, 0, 3, 4, 1, 2))` gives `out[f][t][p][q][a][b] = vis[t][a][b][p][q][f]`,
`np.moveaxis(vis[..., 0, 0, :], 3, 0)` gives
`out[f][t][a][b] = vis[t][a][b][0][0][f]`, `np.transpose(vis,
(4, 0, 2, 3, 1))` gives `out[f][t][p][q][b] = vis[t][b][p][q][f]` and
`np.moveaxis(vis[..., 0, 0, :], 2, 0)` gives
`out[f][t][b] = vis[t][b][0][0][f]`. -/
noncomputable def simulate (cl : Collab) (inp : SimInputs)
    (baselines : Option (List (ℕ × ℕ))) (precision : ℤ) (polarized : Bool)
    (accuracy : ℚ) : Option VisOut :=
  let _dtypes := simDtypes precision
  if blsFalsy baselines then
    (blxyOf inp
        ((get_pos_reds inp.nants inp.antpos true).map
          fun red => red.headD (0, 0))).bind fun blxy =>
      if polarized then
        some (VisOut.expandPol fun fr t p q a b =>
          visLoopExpand cl inp polarized (get_pos_reds inp.nants inp.antpos true)
            blxy accuracy t a b p q fr)
      else
        some (VisOut.expandUnpol fun fr t a b =>
          visLoopExpand cl inp polarized (get_pos_reds inp.nants inp.antpos true)
            blxy accuracy t a b 0 0 fr)
  else
    (blxyOf inp (baselines.getD [])).bind fun blxy =>
      (visLoopCompact cl inp polarized blxy accuracy
          (baselines.getD []).length).map fun vis =>
        if polarized then VisOut.compactPol fun fr t p q b => vis t b p q fr
        else VisOut.compactUnpol fun fr t b => vis t b 0 0 fr

/-- Lines 16-85: the convenience wrapper `simulate_vis`.  When `accuracy`
is `None` it is looked up in `default_accuracy_dict[precision]` (line 66, a
`KeyError` for precisions outside `{1, 2}`); then the equatorial Cartesian
coordinates and the per-LST rotation matrices are produced by the external
conversion collaborators and `simulate` is called. -/
noncomputable def simulate_vis (cl : Collab) (nants : ℕ)
    (antpos : ℕ → ℚ × ℚ × ℚ) (sources : ℕ → ℕ → ℚ) (ra dec : List ℚ)
    (freqs lsts : List ℚ) (baselines : Option (List (ℕ × ℕ)))
    (precision : ℤ) (polarized : Bool) (latitude : ℚ) (accuracy : Option ℚ) :
    Option VisOut :=
  (match accuracy with
    | some a => some a
    | none => default_accuracy_dict precision).bind fun acc =>
    simulate cl
      { nants := nants
        antpos := antpos
        nsrc := ra.length
        sources := sources
        crd_eq := cl.pointSourceCrdEq ra dec
        eq2tops := lsts.map fun lst => cl.eciToEnuMatrix lst latitude
        freqs := freqs }
      baselines precision polarized acc

/-- The two result layouts of `simulate_basis` (lines 340-343 and 384).
Constructor arguments carry the allocated shape; `expand` is
`vis[a][b][t][f]` of shape `(nants, nants, ntimes, nfreqs)` and `compact`
is `vis[b][t][f]` of shape `(nbls, ntimes, nfreqs)`. -/
inductive BasisOut
  | expand (nants ntimes nfreqs : ℕ) (v : ℕ → ℕ → ℕ → ℕ → ℂ)
  | compact (nbls ntimes nfreqs : ℕ) (v : ℕ → ℕ → ℕ → ℂ)

/-- Lines 358-369: the flat first positional argument of `finufft.nufft3d3`,
`2π * np.ravel(tX)` where `tX, _eta = np.meshgrid(tx, eta)`; row-major
ravel of the meshgrid repeats the selected `tx` row once per basis value. -/
noncomputable def basisXArg (inp : SimInputs) (eta : List ℚ) (ti : ℕ) : List ℝ :=
  eta.flatMap fun _e => (txSel inp ti).map fun t : ℚ => 2 * Real.pi * (t : ℝ)

/-- Lines 358-369: `2π * np.ravel(tY)` with `tY, _ = np.meshgrid(ty, eta)`. -/
noncomputable def basisYArg (inp : SimInputs) (eta : List ℚ) (ti : ℕ) : List ℝ :=
  eta.flatMap fun _e => (tySel inp ti).map fun t : ℚ => 2 * Real.pi * (t : ℝ)

/-- Line 361: `np.ravel(_eta)`, each basis value repeated once per selected
source (not scaled by 2π in the source). -/
noncomputable def basisZArg (inp : SimInputs) (eta : List ℚ) (ti : ℕ) : List ℝ :=
  eta.flatMap fun ev => (txSel inp ti).map fun _t : ℚ => (ev : ℝ)

/-- Line 362: `np.ravel(Isky[above_horizon])`, the selected intensity rows
flattened with the frequency axis innermost. -/
noncomputable def basisCArg (inp : SimInputs) (ti : ℕ) : List ℂ :=
  (selIdx inp ti).flatMap fun j => (List.range inp.freqs.length).map fun fi =>
    Isky inp j fi

/-- Lines 336-337 and 363: `np.ravel(U * tF)` where `U, tF =
np.meshgrid(blx / speed_of_light, freqs)`; frequency-major flattening of
`blx[k] * freqs[fi] / speed_of_light`. -/
def basisSArg (blxy : List (ℚ × ℚ)) (freqs : List ℚ) : List ℝ :=
  freqs.flatMap fun fq => blxy.map fun b => ((b.1 * fq / speed_of_light : ℚ) : ℝ)

/-- Line 364: `np.ravel(V * tF)`. -/
def basisTArg (blxy : List (ℚ × ℚ)) (freqs : List ℚ) : List ℝ :=
  freqs.flatMap fun fq => blxy.map fun b => ((b.2 * fq / speed_of_light : ℚ) : ℝ)

/-- Line 365: `np.ravel(tF)`, each frequency repeated once per baseline. -/
def basisUArg (blxy : List (ℚ × ℚ)) (freqs : List ℚ) : List ℝ :=
  freqs.flatMap fun fq => blxy.map fun _b => ((fq : ℚ) : ℝ)

/-- Lines 358-369: the per-time transform result of `simulate_basis`,
reshaped by `_vis.shape = (nfreqs, nbls)`; entry `(fi, bi)` is flat output
element `fi * nbls + bi`. -/
noncomputable def basisVisT (cl : Collab) (inp : SimInputs) (eta : List ℚ)
    (blxy : List (ℚ × ℚ)) (accuracy : ℚ) (ti : ℕ) : ℕ → ℕ → ℂ :=
  fun fi bi =>
    cl.nufft3d3 (basisXArg inp eta ti) (basisYArg inp eta ti)
      (basisZArg inp eta ti) (fun k => (basisCArg inp ti).getD k 0)
      (basisSArg blxy inp.freqs) (basisTArg blxy inp.freqs)
      (basisUArg blxy inp.freqs) accuracy (fi * blxy.length + bi)

/-- Lines 371-382 of `simulate_basis`, one time sample: for each
representative baseline add `_vis[:, bi]` at every member pair and the
conjugate at every reversed member pair - with no auto-pair guard, unlike
`simulate`.  The array layout is `vis[a][b][t][f]`, so the payload added at
time `ti` is supported on `t = ti`. -/
noncomputable def expandStepBasis (reds : List (List (ℕ × ℕ))) (visT : ℕ → ℕ → ℂ) (ti : ℕ)
    (slice : ℕ → ℕ → ℕ → ℕ → ℂ) : ℕ → ℕ → ℕ → ℕ → ℂ :=
  reds.enum.foldl
    (fun s g =>
      let s1 := addAt2 s g.2 fun t fi => if t = ti then visT fi g.1 else 0
      addAt2 s1 (g.2.map fun m => (m.2, m.1)) fun t fi =>
        if t = ti then (starRingEnd ℂ) (visT fi g.1) else 0)
    slice

/-- Lines 272-384: the basis-domain variant `simulate_basis`.  Full
expansion accumulates into `vis[a][b][t][f]`; in compact mode the per-time
transform results `_vis` are computed but never stored (the loop of lines
346-369 has no write into `vis` when `expand_vis` is false), so the zero
array allocated at line 343 is returned unchanged. -/
noncomputable def simulate_basis (cl : Collab) (inp : SimInputs) (eta : List ℚ)
    (baselines : Option (List (ℕ × ℕ))) (precision : ℤ) (accuracy : ℚ) :
    Option BasisOut :=
  let _dtypes := simDtypes precision
  if blsFalsy baselines then
    (blxyOf inp
        ((get_pos_reds inp.nants inp.antpos false).map
          fun red => red.headD (0, 0))).bind fun blxy =>
      some (BasisOut.expand inp.nants inp.eq2tops.length inp.freqs.length
        ((List.range inp.eq2tops.length).foldl
          (fun v ti =>
            expandStepBasis (get_pos_reds inp.nants inp.antpos false)
              (basisVisT cl inp eta blxy accuracy ti) ti v)
          fun _ _ _ _ => 0))
  else
    (blxyOf inp (baselines.getD [])).bind fun blxy =>
      let _visPerTime := (List.range inp.eq2tops.length).map fun ti =>
        basisVisT cl inp eta blxy accuracy ti
      some (BasisOut.compact (baselines.getD []).length inp.eq2tops.length
        inp.freqs.length fun _ _ _ => 0)

/-- Record of the `finufft.nufft2d3` invocations `simulate` performs, in
source order: one entry `(ti, fi, m)` per time sample and frequency channel
(the loops of lines 185 and 207), where `m` is the length of the point
lists handed to the transform at that call - the number of above-horizon
sources.  The source has no guard that would skip a call when `m = 0`. -/
def nufftInvocations (inp : SimInputs) : List (ℕ × ℕ × ℕ) :=
  (List.range inp.eq2tops.length).flatMap fun ti =>
    (List.range inp.freqs.length).map fun fi => (ti, fi, (txSel inp ti).length)

/-! Helper lemmas about the embedded numpy idioms. -/

theorem boolSelect_map_decide {α β : Type} (l : List α) (f : α → β)
    (P : α → Prop) [DecidablePred P] :
    boolSelect (l.map f) (l.map fun x => decide (P x)) =
      (l.filter fun x => decide (P x)).map f := by
  induction l with
  | nil => rfl
  | cons x xs ih =>
      by_cases hx : P x <;>
        simp [boolSelect, List.filter_cons, hx, ← ih, List.zip_map']

theorem blxyOf_of_valid (inp : SimInputs) (bls : List (ℕ × ℕ))
    (h : ∀ bl ∈ bls, bl.1 < inp.nants ∧ bl.2 < inp.nants) :
    blxyOf inp bls = some (bls.map (blVec2 inp.antpos)) := by
  induction bls with
  | nil => rfl
  | cons bl rest ih =>
      have hbl := h bl (List.mem_cons_self bl rest)
      rw [blxyOf, if_pos hbl, ih fun x hx => h x (List.mem_cons_of_mem bl hx)]
      rfl

theorem addAt2_cell {β : Type} [AddCommMonoid β] (targets : List (ℕ × ℕ))
    (s : ℕ → ℕ → β) (x : β) (a b : ℕ) :
    addAt2 s targets x a b = s a b + targets.count (a, b) • x := by
  induction targets generalizing s with
  | nil => simp [addAt2]
  | cons m tg ih =>
      have hstep : addAt2 s (m :: tg) x =
          addAt2 (fun a0 b0 => if a0 = m.1 ∧ b0 = m.2 then s a0 b0 + x else s a0 b0)
            tg x := rfl
      rw [hstep, ih]
      by_cases hm : (a, b) = m
      · have h1 : a = m.1 ∧ b = m.2 := by
          constructor <;> rw [← hm]
        rw [List.count_cons, if_pos h1, if_pos (by exact beq_iff_eq.mpr hm.symm)]
        rw [succ_nsmul]
        ac_rfl
      · have h1 : ¬(a = m.1 ∧ b = m.2) := by
          intro hc
          exact hm (Prod.ext hc.1 hc.2)
        rw [List.count_cons, if_neg h1,
          if_neg (by simpa using fun hc : m = (a, b) => hm hc.symm)]
        simp

/-- The total contribution a single enumerated group deposits at the
antenna-antenna cell `(a, b)` during `expandFoldSim`: one direct payload per
occurrence of `(a, b)` among the members, plus, when the group's
representative (its head) is not an auto pair, one conjugate payload per
occurrence of `(a, b)` among the reversed members. -/
noncomputable def simContrib (visT : ℕ → ℕ → ℕ → ℕ → ℂ) (a b : ℕ)
    (g : ℕ × List (ℕ × ℕ)) : ℕ → ℕ → ℕ → ℂ :=
  (g.2.count (a, b)) • (fun p q fi => visT p q g.1 fi) +
    if (g.2.headD (0, 0)).1 ≠ (g.2.headD (0, 0)).2 then
      ((g.2.map fun m => (m.2, m.1)).count (a, b)) •
        fun p q fi => (starRingEnd ℂ) (visT p q g.1 fi)
    else 0

theorem expandFoldSim_cell (L : List (ℕ × List (ℕ × ℕ)))
    (visT : ℕ → ℕ → ℕ → ℕ → ℂ) (slice : ℕ → ℕ → ℕ → ℕ → ℕ → ℂ) (a b : ℕ) :
    expandFoldSim L visT slice a b =
      slice a b + (L.map (simContrib visT a b)).sum := by
  induction L generalizing slice with
  | nil => simp [expandFoldSim]
  | cons g L ih =>
      have hstep : expandFoldSim (g :: L) visT slice =
          expandFoldSim L visT
            (let bls := g.2.headD (0, 0)
             let s1 := addAt2 slice g.2 fun p q fi => visT p q g.1 fi
             if bls.1 ≠ bls.2 then
               addAt2 s1 (g.2.map fun m => (m.2, m.1)) fun p q fi =>
                 (starRingEnd ℂ) (visT p q g.1 fi)
             else s1) := rfl
      rw [hstep, ih]
      simp only [List.map_cons, List.sum_cons, simContrib]
      by_cases hg : (g.2.headD (0, 0)).1 ≠ (g.2.headD (0, 0)).2
      · simp only [if_pos hg, addAt2_cell]
        abel
      · simp only [if_neg hg, addAt2_cell]
        abel

theorem foldl_pointwise {γ : Type} (F : ℕ → γ → γ) (R : List ℕ)
    (hR : R.Nodup) (v0 : ℕ → γ) (t : ℕ) :
    (R.foldl (fun v ti => fun s => if s = ti then F ti (v ti) else v s) v0) t =
      if t ∈ R then F t (v0 t) else v0 t := by
  induction R generalizing v0 with
  | nil => simp
  | cons r R ih =>
      have hr : r ∉ R := (List.nodup_cons.mp hR).1
      have hstep : ((r :: R).foldl
            (fun v ti => fun s => if s = ti then F ti (v ti) else v s) v0) t =
          (R.foldl (fun v ti => fun s => if s = ti then F ti (v ti) else v s)
            (fun s => if s = r then F r (v0 r) else v0 s)) t := rfl
      rw [hstep, ih (List.nodup_cons.mp hR).2]
      by_cases htr : t = r
      · subst htr
        simp [hr]
      · by_cases htR : t ∈ R <;> simp [htr, htR]

theorem sum_map_single {γ : Type} {β : Type} [AddCommMonoid β] (L : List γ)
    (f : γ → β) (x : γ) (hmem : x ∈ L) (hnd : L.Nodup)
    (hz : ∀ y ∈ L, y ≠ x → f y = 0) : (L.map f).sum = f x := by
  induction L with
  | nil => cases hmem
  | cons y L ih =>
      rcases List.mem_cons.mp hmem with hyx | hxL
      · subst hyx
        have hnot : x ∉ L := (List.nodup_cons.mp hnd).1
        have hrest : (L.map f).sum = 0 := by
          apply List.sum_eq_zero
          intro z hz2
          rcases List.mem_map.mp hz2 with ⟨w, hw, hfw⟩
          rw [← hfw]
          exact hz w (List.mem_cons_of_mem _ hw) fun hc => hnot (hc ▸ hw)
        simp [hrest]
      · have hyx : y ≠ x := fun hc => (List.nodup_cons.mp hnd).1 (hc ▸ hxL)
        rw [List.map_cons, List.sum_cons, hz y (List.mem_cons_self y L) hyx,
          ih hxL (List.nodup_cons.mp hnd).2
            fun w hw hwx => hz w (List.mem_cons_of_mem _ hw) hwx]
        simp

theorem sum_map_all_zero {γ : Type} {β : Type} [AddCommMonoid β] (L : List γ)
    (f : γ → β) (hz : ∀ y ∈ L, f y = 0) : (L.map f).sum = 0 := by
  apply List.sum_eq_zero
  intro z hz2
  rcases List.mem_map.mp hz2 with ⟨w, hw, hfw⟩
  exact hfw ▸ hz w hw

theorem enum_nodup {α : Type} (l : List α) : l.enum.Nodup :=
  List.Nodup.of_map Prod.fst (List.nodup_enum_map_fst l)

/-! Facts about the modelled redundancy grouper. -/

theorem mem_pairList {n : ℕ} {autos : Bool} {m : ℕ × ℕ} :
    m ∈ pairList n autos ↔
      m.1 < n ∧ m.2 < n ∧ (m.1 < m.2 ∨ (autos = true ∧ m.1 = m.2)) := by
  obtain ⟨a, b⟩ := m
  simp only [pairList, List.mem_flatMap, List.mem_map, List.mem_filter,
    List.mem_range, Bool.or_eq_true, Bool.and_eq_true, decide_eq_true_eq,
    beq_iff_eq]
  constructor
  · rintro ⟨i, hi, j, ⟨hj, hcond⟩, heq⟩
    injection heq with h1 h2
    subst h1
    subst h2
    exact ⟨hi, hj, hcond⟩
  · rintro ⟨ha, hb, hcond⟩
    exact ⟨a, ha, b, ⟨hb, hcond⟩, rfl⟩

theorem pairList_nodup (n : ℕ) (autos : Bool) : (pairList n autos).Nodup := by
  rw [pairList, List.nodup_flatMap]
  constructor
  · intro i _hi
    refine List.Nodup.map ?_ ((List.nodup_range n).filter _)
    intro j j' h
    simpa using h
  · refine List.Pairwise.imp ?_ (List.nodup_range n)
    intro i i' hne
    intro x hx hx'
    rcases List.mem_map.mp hx with ⟨j, _, hj⟩
    rcases List.mem_map.mp hx' with ⟨j', _, hj'⟩
    apply hne
    have hpair : (i, j) = (i', j') := by rw [hj, hj']
    exact congrArg Prod.fst hpair

theorem dedupByVec_subset (ap : ℕ → ℚ × ℚ × ℚ) :
    ∀ l : List (ℕ × ℕ), ∀ r ∈ dedupByVec ap l, r ∈ l
  | [] => by simp [dedupByVec]
  | p :: rest => by
      intro r hr
      rw [dedupByVec] at hr
      rcases List.mem_cons.mp hr with h | h
      · exact h ▸ List.mem_cons_self _ _
      · exact List.mem_cons_of_mem _
          (List.mem_of_mem_filter (dedupByVec_subset ap _ r h))
  termination_by l => l.length
  decreasing_by
    simp only [List.length_cons]
    exact Nat.lt_succ_of_le (List.length_filter_le _ rest)

theorem dedupByVec_cover (ap : ℕ → ℚ × ℚ × ℚ) :
    ∀ l : List (ℕ × ℕ), ∀ p ∈ l,
      ∃ r ∈ dedupByVec ap l, blVec2 ap r = blVec2 ap p
  | [] => by simp
  | q :: rest => by
      intro p hp
      rw [dedupByVec]
      rcases List.mem_cons.mp hp with h | h
      · exact ⟨q, List.mem_cons_self _ _, by rw [h]⟩
      · by_cases hv : blVec2 ap p = blVec2 ap q
        · exact ⟨q, List.mem_cons_self _ _, hv.symm⟩
        · have hp2 : p ∈ rest.filter fun x => blVec2 ap x ≠ blVec2 ap q :=
            List.mem_filter.mpr ⟨h, by simpa using hv⟩
          obtain ⟨r, hr, hvr⟩ := dedupByVec_cover ap _ p hp2
          exact ⟨r, List.mem_cons_of_mem _ hr, hvr⟩
  termination_by l => l.length
  decreasing_by
    simp only [List.length_cons]
    exact Nat.lt_succ_of_le (List.length_filter_le _ rest)

theorem dedupByVec_pairwise (ap : ℕ → ℚ × ℚ × ℚ) :
    ∀ l : List (ℕ × ℕ),
      (dedupByVec ap l).Pairwise fun p q => blVec2 ap p ≠ blVec2 ap q
  | [] => by simp [dedupByVec]
  | q :: rest => by
      rw [dedupByVec]
      refine List.Pairwise.cons ?_ (dedupByVec_pairwise ap _)
      intro r hr
      have hr2 := dedupByVec_subset ap _ r hr
      have hne := (List.mem_filter.mp hr2).2
      have hne2 : blVec2 ap r ≠ blVec2 ap q := by simpa using hne
      intro hqr
      exact hne2 hqr.symm
  termination_by l => l.length
  decreasing_by
    simp only [List.length_cons]
    exact Nat.lt_succ_of_le (List.length_filter_le _ rest)

theorem reds_enum_elem {n : ℕ} {ap : ℕ → ℚ × ℚ × ℚ} {autos : Bool} {bi : ℕ}
    {g : List (ℕ × ℕ)} (hmem : (bi, g) ∈ (get_pos_reds n ap autos).enum) :
    ∃ r, (dedupByVec ap (pairList n autos))[bi]? = some r ∧
      g = (pairList n autos).filter fun m => blVec2 ap m = blVec2 ap r := by
  have h1 : (get_pos_reds n ap autos)[bi]? = some g :=
    List.mk_mem_enum_iff_getElem?.mp hmem
  rw [get_pos_reds, List.getElem?_map] at h1
  cases hd : (dedupByVec ap (pairList n autos))[bi]? with
  | none =>
      rw [hd] at h1
      exact Option.noConfusion h1
  | some r =>
      rw [hd] at h1
      simp only [Option.map_some', Option.some.injEq] at h1
      exact ⟨r, rfl, h1.symm⟩

theorem reps_vec_distinct (ap : ℕ → ℚ × ℚ × ℚ) (l : List (ℕ × ℕ))
    {bi bj : ℕ} {ri rj : ℕ × ℕ} (hi : (dedupByVec ap l)[bi]? = some ri)
    (hj : (dedupByVec ap l)[bj]? = some rj) (hne : bi ≠ bj) :
    blVec2 ap ri ≠ blVec2 ap rj := by
  have hp := dedupByVec_pairwise ap l
  rw [List.pairwise_iff_getElem] at hp
  obtain ⟨hbi, hgi⟩ := List.getElem?_eq_some_iff.mp hi
  obtain ⟨hbj, hgj⟩ := List.getElem?_eq_some_iff.mp hj
  rcases Nat.lt_or_ge bi bj with h | h
  · exact hgi ▸ hgj ▸ hp bi bj hbi hbj h
  · have h2 : bj < bi := Nat.lt_of_le_of_ne h fun hc => hne hc.symm
    exact fun hc => (hgj ▸ hgi ▸ hp bj bi hbj hbi h2) hc.symm

theorem exists_group {n : ℕ} {ap : ℕ → ℚ × ℚ × ℚ} {autos : Bool}
    {m : ℕ × ℕ} (hm : m ∈ pairList n autos) :
    ∃ bi g, (bi, g) ∈ (get_pos_reds n ap autos).enum ∧ m ∈ g := by
  obtain ⟨r, hr, hv⟩ := dedupByVec_cover ap (pairList n autos) m hm
  obtain ⟨bi, hbi⟩ := List.mem_iff_getElem?.mp hr
  refine ⟨bi, (pairList n autos).filter fun x => blVec2 ap x = blVec2 ap r,
    ?_, ?_⟩
  · apply List.mk_mem_enum_iff_getElem?.mpr
    rw [get_pos_reds, List.getElem?_map, hbi]
    rfl
  · exact List.mem_filter.mpr ⟨hm, by simpa using hv.symm⟩

theorem blVec2_self (ap : ℕ → ℚ × ℚ × ℚ) (a : ℕ) :
    blVec2 ap (a, a) = (0, 0) := by
  simp [blVec2]

theorem headD_mem_of_mem {g : List (ℕ × ℕ)} {m : ℕ × ℕ} (hm : m ∈ g) :
    g.headD (0, 0) ∈ g := by
  cases g with
  | nil => cases hm
  | cons h t => exact List.mem_cons_self _ _

theorem blVec2_auto (ap : ℕ → ℚ × ℚ × ℚ) (m : ℕ × ℕ) (hm : m.1 = m.2) :
    blVec2 ap m = (0, 0) := by
  obtain ⟨x, y⟩ := m
  cases hm
  exact blVec2_self ap x

theorem expandStepSim_cell (reds : List (List (ℕ × ℕ)))
    (visT : ℕ → ℕ → ℕ → ℕ → ℂ) (x y : ℕ) :
    expandStepSim reds visT (fun _ _ _ _ _ => 0) x y =
      (reds.enum.map (simContrib visT x y)).sum := by
  rw [expandStepSim, expandFoldSim_cell]
  show (0 : ℕ → ℕ → ℕ → ℂ) + _ = _
  rw [zero_add]

theorem count_one_of_nodup {α : Type} [BEq α] [LawfulBEq α] {l : List α}
    {x : α} (hnd : l.Nodup) (hx : x ∈ l) : l.count x = 1 := by
  induction l with
  | nil => cases hx
  | cons y l ih =>
      rw [List.count_cons]
      rcases List.mem_cons.mp hx with h | h
      · subst h
        have hnot : x ∉ l := (List.nodup_cons.mp hnd).1
        rw [List.count_eq_zero.mpr hnot, beq_self_eq_true, if_pos rfl]
      · have hyx : ¬(y == x) = true := by
          simp only [beq_iff_eq]
          exact fun hc => (List.nodup_cons.mp hnd).1 (hc ▸ h)
        rw [if_neg hyx, Nat.add_zero]
        exact ih (List.nodup_cons.mp hnd).2 h

theorem count_group_pos {n : ℕ} {autos : Bool} {ap : ℕ → ℚ × ℚ × ℚ}
    {r m : ℕ × ℕ} (hm : m ∈ pairList n autos)
    (hv : blVec2 ap m = blVec2 ap r) :
    ((pairList n autos).filter fun x => blVec2 ap x = blVec2 ap r).count m
      = 1 := by
  rw [List.count_filter (by simpa using hv)]
  exact count_one_of_nodup (pairList_nodup n autos) hm

theorem count_group_zero {n : ℕ} {autos : Bool} {ap : ℕ → ℚ × ℚ × ℚ}
    {r : ℕ × ℕ} (m : ℕ × ℕ)
    (h : m ∉ pairList n autos ∨ blVec2 ap m ≠ blVec2 ap r) :
    ((pairList n autos).filter fun x => blVec2 ap x = blVec2 ap r).count m
      = 0 := by
  apply List.count_eq_zero.mpr
  intro hc
  obtain ⟨h1, h2⟩ := List.mem_filter.mp hc
  rcases h with h | h
  · exact h h1
  · exact h (by simpa using h2)

theorem count_map_swap (g : List (ℕ × ℕ)) (a b : ℕ) :
    (g.map fun m => (m.2, m.1)).count (a, b) = g.count (b, a) := by
  induction g with
  | nil => rfl
  | cons m g ih =>
      rw [List.map_cons, List.count_cons, List.count_cons, ih]
      congr 1
      have hiff : ((m.2, m.1) == (a, b)) = true ↔ (m == (b, a)) = true := by
        simp only [beq_iff_eq, Prod.ext_iff, Prod.mk.injEq]
        exact and_comm
      exact if_congr hiff rfl rfl

theorem simContrib_zero_of_other {n : ℕ} {ap : ℕ → ℚ × ℚ × ℚ} {autos : Bool}
    (visT : ℕ → ℕ → ℕ → ℕ → ℂ) {bi : ℕ} {r : ℕ × ℕ}
    (hgetr : (dedupByVec ap (pairList n autos))[bi]? = some r)
    {x : ℕ × List (ℕ × ℕ)} (hx : x ∈ (get_pos_reds n ap autos).enum)
    (hne : x ≠ (bi, (pairList n autos).filter fun m => blVec2 ap m = blVec2 ap r))
    (u w : ℕ)
    (hu : (u, w) ∉ pairList n autos ∨ blVec2 ap (u, w) = blVec2 ap r)
    (hw : (w, u) ∉ pairList n autos ∨ blVec2 ap (w, u) = blVec2 ap r) :
    simContrib visT u w x = 0 := by
  obtain ⟨bj, g2⟩ := x
  obtain ⟨r2, hgetr2, rfl⟩ := reds_enum_elem hx
  by_cases hbij : bj = bi
  · subst hbij
    rw [hgetr, Option.some.injEq] at hgetr2
    subst hgetr2
    exact absurd rfl hne
  · have hvne : blVec2 ap r2 ≠ blVec2 ap r :=
      reps_vec_distinct ap _ hgetr2 hgetr hbij
    have hd : ((pairList n autos).filter
        fun m => blVec2 ap m = blVec2 ap r2).count (u, w) = 0 := by
      apply count_group_zero
      rcases hu with h | h
      · exact Or.inl h
      · exact Or.inr (h ▸ fun hc => hvne hc.symm)
    have hc : ((pairList n autos).filter
        fun m => blVec2 ap m = blVec2 ap r2).count (w, u) = 0 := by
      apply count_group_zero
      rcases hw with h | h
      · exact Or.inl h
      · exact Or.inr (h ▸ fun hc => hvne hc.symm)
    simp [simContrib, hd, count_map_swap, hc]

theorem expandCell_of_mem {n : ℕ} {ap : ℕ → ℚ × ℚ × ℚ} {autos : Bool}
    (visT : ℕ → ℕ → ℕ → ℕ → ℂ)
    (hdist : ∀ i j : ℕ, i < n → j < n → blVec2 ap (i, j) = (0, 0) → i = j)
    {a b bi : ℕ} {g : List (ℕ × ℕ)}
    (hmem : (bi, g) ∈ (get_pos_reds n ap autos).enum)
    (hab : (a, b) ∈ g) (hle : a ≤ b) :
    expandStepSim (get_pos_reds n ap autos) visT (fun _ _ _ _ _ => 0) a b
        = (fun p q fi => visT p q bi fi) ∧
      expandStepSim (get_pos_reds n ap autos) visT (fun _ _ _ _ _ => 0) b a
        = if a = b then (fun p q fi => visT p q bi fi)
          else fun p q fi => (starRingEnd ℂ) (visT p q bi fi) := by
  obtain ⟨r, hgetr, rfl⟩ := reds_enum_elem hmem
  have habP : (a, b) ∈ pairList n autos := (List.mem_filter.mp hab).1
  have hvab : blVec2 ap (a, b) = blVec2 ap r := by
    simpa using (List.mem_filter.mp hab).2
  have ha : a < n := (mem_pairList.mp habP).1
  have hb : b < n := (mem_pairList.mp habP).2.1
  have hcnt1 : ((pairList n autos).filter
      fun m => blVec2 ap m = blVec2 ap r).count (a, b) = 1 :=
    count_group_pos habP hvab
  have hhead := headD_mem_of_mem hab
  have hheadP : ((pairList n autos).filter
        fun m => blVec2 ap m = blVec2 ap r).headD (0, 0) ∈ pairList n autos :=
    (List.mem_filter.mp hhead).1
  have hheadV : blVec2 ap (((pairList n autos).filter
        fun m => blVec2 ap m = blVec2 ap r).headD (0, 0)) = blVec2 ap r := by
    simpa using (List.mem_filter.mp hhead).2
  rcases Nat.lt_or_eq_of_le hle with hlt | heq
  · -- strictly ascending pair
    have hvne0 : blVec2 ap (a, b) ≠ (0, 0) := fun hc =>
      absurd (hdist a b ha hb hc) (Nat.ne_of_lt hlt)
    have hbaP : (b, a) ∉ pairList n autos := by
      intro hc
      rcases (mem_pairList.mp hc).2.2 with h | h
      · exact absurd (Nat.lt_trans hlt h) (Nat.lt_irrefl a)
      · exact absurd h.2.symm (Nat.ne_of_lt hlt)
    have hguard : (((pairList n autos).filter
          fun m => blVec2 ap m = blVec2 ap r).headD (0, 0)).1 ≠
        (((pairList n autos).filter
          fun m => blVec2 ap m = blVec2 ap r).headD (0, 0)).2 := by
      intro hc
      have h0 : blVec2 ap r = (0, 0) := by
        rw [← hheadV]
        exact blVec2_auto ap _ hc
      exact hvne0 (by rw [hvab, h0])
    constructor
    · rw [expandStepSim_cell]
      rw [sum_map_single _ _ _ hmem (enum_nodup _) ?side]
      case side =>
        intro y hy hyne
        exact simContrib_zero_of_other visT hgetr hy hyne a b
          (Or.inr hvab) (Or.inl hbaP)
      rw [simContrib]
      simp only [hcnt1, one_nsmul, count_map_swap,
        count_group_zero (b, a) (Or.inl hbaP), zero_nsmul, ite_self, add_zero]
    · rw [expandStepSim_cell]
      rw [sum_map_single _ _ _ hmem (enum_nodup _) ?side2]
      case side2 =>
        intro y hy hyne
        exact simContrib_zero_of_other visT hgetr hy hyne b a
          (Or.inl hbaP) (Or.inr hvab)
      rw [simContrib]
      simp only [count_group_zero (b, a) (Or.inl hbaP), zero_nsmul,
        count_map_swap, hcnt1, if_pos hguard, one_nsmul, zero_add,
        if_neg (Nat.ne_of_lt hlt)]
  · -- auto pair
    subst heq
    have hvr0 : blVec2 ap r = (0, 0) := by rw [← hvab, blVec2_self]
    have hguard : ¬((((pairList n autos).filter
          fun m => blVec2 ap m = blVec2 ap r).headD (0, 0)).1 ≠
        (((pairList n autos).filter
          fun m => blVec2 ap m = blVec2 ap r).headD (0, 0)).2) := by
      have hz : blVec2 ap (((pairList n autos).filter
          fun m => blVec2 ap m = blVec2 ap r).headD (0, 0)) = (0, 0) :=
        hheadV.trans hvr0
      have hbounds := mem_pairList.mp hheadP
      intro hc
      exact hc (hdist _ _ hbounds.1 hbounds.2.1 hz)
    have hcell : expandStepSim (get_pos_reds n ap autos) visT
        (fun _ _ _ _ _ => 0) a a = fun p q fi => visT p q bi fi := by
      rw [expandStepSim_cell]
      rw [sum_map_single _ _ _ hmem (enum_nodup _) ?side3]
      case side3 =>
        intro y hy hyne
        exact simContrib_zero_of_other visT hgetr hy hyne a a
          (Or.inr hvab) (Or.inr hvab)
      rw [simContrib]
      simp only [hcnt1, one_nsmul, if_neg hguard, add_zero]
    exact ⟨hcell, by rw [if_pos rfl]; exact hcell⟩

theorem expandCell_zero {n : ℕ} {ap : ℕ → ℚ × ℚ × ℚ} {autos : Bool}
    (visT : ℕ → ℕ → ℕ → ℕ → ℂ) {a b : ℕ}
    (h1 : (a, b) ∉ pairList n autos) (h2 : (b, a) ∉ pairList n autos) :
    expandStepSim (get_pos_reds n ap autos) visT (fun _ _ _ _ _ => 0) a b
      = 0 := by
  rw [expandStepSim_cell]
  apply sum_map_all_zero
  intro y hy
  obtain ⟨bj, g2⟩ := y
  obtain ⟨r2, _, rfl⟩ := reds_enum_elem hy
  simp [simContrib, count_group_zero (a, b) (Or.inl h1), count_map_swap,
    count_group_zero (b, a) (Or.inl h2)]

theorem visLoopExpand_eq (cl : Collab) (inp : SimInputs) (polarized : Bool)
    (reds : List (List (ℕ × ℕ))) (blxy : List (ℚ × ℚ)) (acc : ℚ) (t : ℕ) :
    visLoopExpand cl inp polarized reds blxy acc t =
      if t < inp.eq2tops.length then
        expandStepSim reds (visCompactT cl inp polarized blxy acc t)
          (fun _ _ _ _ _ => 0)
      else fun _ _ _ _ _ => 0 := by
  have h := foldl_pointwise
    (fun ti g => expandStepSim reds (visCompactT cl inp polarized blxy acc ti) g)
    (List.range inp.eq2tops.length) (List.nodup_range _)
    (fun _ => fun _ _ _ _ _ => 0) t
  simp only [List.mem_range] at h
  exact h

theorem selIdx_eq (inp : SimInputs) (ti : ℕ) :
    selIdx inp ti =
      (List.range inp.nsrc).filter fun j => decide (0 < (txyz inp ti j).2.2) := by
  have h := boolSelect_map_decide (List.range inp.nsrc) id
    fun j => 0 < (txyz inp ti j).2.2
  rw [List.map_id] at h
  rw [selIdx, aboveHorizon, tzList, List.map_map]
  exact h.trans (List.map_id _)

theorem txSel_eq (inp : SimInputs) (ti : ℕ) :
    txSel inp ti =
      ((List.range inp.nsrc).filter fun j => decide (0 < (txyz inp ti j).2.2)).map
        fun j => (txyz inp ti j).1 := by
  rw [txSel, txList, aboveHorizon, tzList, List.map_map]
  exact boolSelect_map_decide (List.range inp.nsrc) _
    fun j => 0 < (txyz inp ti j).2.2

theorem tySel_eq (inp : SimInputs) (ti : ℕ) :
    tySel inp ti =
      ((List.range inp.nsrc).filter fun j => decide (0 < (txyz inp ti j).2.2)).map
        fun j => (txyz inp ti j).2.1 := by
  rw [tySel, tyList, aboveHorizon, tzList, List.map_map]
  exact boolSelect_map_decide (List.range inp.nsrc) _
    fun j => 0 < (txyz inp ti j).2.2

theorem filter_id_map_length {α : Type} (l : List α) (f : α → Bool) :
    (((l.map f).filter fun b => b)).length = (l.filter f).length := by
  induction l with
  | nil => rfl
  | cons x l ih =>
      rw [List.map_cons, List.filter_cons, List.filter_cons]
      cases hf : f x <;> simp [hf, ih]

theorem nsimSources_eq (inp : SimInputs) (ti : ℕ) :
    nsimSources inp ti =
      ((List.range inp.nsrc).filter fun j =>
        decide (0 < (txyz inp ti j).2.2)).length := by
  rw [nsimSources, aboveHorizon, tzList, List.map_map]
  exact filter_id_map_length (List.range inp.nsrc) _

theorem getD_map_lt {α β : Type} (l : List α) (f : α → β) (d : β) (d0 : α)
    (k : ℕ) (h : k < l.length) : (l.map f).getD k d = f (l.getD k d0) := by
  induction l generalizing k with
  | nil => cases h
  | cons x l ih =>
      cases k with
      | zero => rfl
      | succ k => exact ih k (Nat.lt_of_succ_lt_succ h)

theorem visCompactT_zero_of_below (cl : Collab) (inp : SimInputs)
    (polarized : Bool) (blxy : List (ℚ × ℚ)) (acc : ℚ) (ti : ℕ)
    (hN : cl.nufft2d3 = nufft2d3Spec)
    (hbelow : ∀ j, j < inp.nsrc → ¬(0 < (txyz inp ti j).2.2))
    (p q bi fi : ℕ) :
    visCompactT cl inp polarized blxy acc ti p q bi fi = 0 := by
  rw [visCompactT, hN, nufft2d3Spec]
  have hx : xArg inp ti = [] := by
    rw [xArg, txSel_eq]
    have hf : ((List.range inp.nsrc).filter fun j =>
        decide (0 < (txyz inp ti j).2.2)) = [] := by
      apply List.filter_eq_nil_iff.mpr
      intro j hj
      simpa using hbelow j (List.mem_range.mp hj)
    rw [hf]
    rfl
  rw [hx]
  simp

theorem visCompactT_real (cl : Collab) (inp : SimInputs) (polarized : Bool)
    (blxy : List (ℚ × ℚ)) (acc : ℚ) (ti p q bi fi : ℕ)
    (hN : cl.nufft2d3 = nufft2d3Spec) (hbi : bi < blxy.length)
    (hvec : blxy.getD bi (0, 0) = (0, 0)) :
    (starRingEnd ℂ) (visCompactT cl inp polarized blxy acc ti p q bi fi)
      = visCompactT cl inp polarized blxy acc ti p q bi fi := by
  rw [visCompactT, hN, nufft2d3Spec]
  have hu : (uList blxy (inp.freqs.getD fi 0)).getD bi 0 = (0 : ℝ) := by
    rw [uList, getD_map_lt blxy _ 0 (0, 0) bi hbi, hvec]
    norm_num
  have hv : (vList blxy (inp.freqs.getD fi 0)).getD bi 0 = (0 : ℝ) := by
    rw [vList, getD_map_lt blxy _ 0 (0, 0) bi hbi, hvec]
    norm_num
  rw [hu, hv]
  simp only [zero_mul, add_zero, Complex.ofReal_zero, mul_zero,
    Complex.exp_zero, mul_one]
  rw [map_sum]
  apply Finset.sum_congr rfl
  intro j _
  rw [iSky, Isky]
  simp only [map_mul, Complex.conj_conj, map_ratCast]
  ring

theorem expand_bls_valid (n : ℕ) (ap : ℕ → ℚ × ℚ × ℚ) (autos : Bool) :
    ∀ bl ∈ (get_pos_reds n ap autos).map fun red => red.headD (0, 0),
      bl.1 < n ∧ bl.2 < n := by
  intro bl hbl
  rcases List.mem_map.mp hbl with ⟨red, hred, rfl⟩
  rcases List.mem_iff_getElem?.mp hred with ⟨bi, hbi⟩
  have hmem : (bi, red) ∈ (get_pos_reds n ap autos).enum :=
    List.mk_mem_enum_iff_getElem?.mpr hbi
  obtain ⟨r, hr, rfl⟩ := reds_enum_elem hmem
  have hrP : r ∈ pairList n autos :=
    dedupByVec_subset ap _ r (List.getElem?_mem hr)
  have hrg : r ∈ (pairList n autos).filter
      fun m => blVec2 ap m = blVec2 ap r :=
    List.mem_filter.mpr ⟨hrP, by simp⟩
  have hheadP := (List.mem_filter.mp (headD_mem_of_mem hrg)).1
  exact ⟨(mem_pairList.mp hheadP).1, (mem_pairList.mp hheadP).2.1⟩

theorem head_vec_of_mem {n : ℕ} {ap : ℕ → ℚ × ℚ × ℚ} {autos : Bool}
    {bi : ℕ} {g : List (ℕ × ℕ)} {m : ℕ × ℕ}
    (hmem : (bi, g) ∈ (get_pos_reds n ap autos).enum) (hm : m ∈ g) :
    blVec2 ap (g.headD (0, 0)) = blVec2 ap m := by
  obtain ⟨r, _, rfl⟩ := reds_enum_elem hmem
  have h1 : blVec2 ap ((((pairList n autos).filter
      fun x => blVec2 ap x = blVec2 ap r)).headD (0, 0)) = blVec2 ap r := by
    simpa using (List.mem_filter.mp (headD_mem_of_mem hm)).2
  have h2 : blVec2 ap m = blVec2 ap r := by
    simpa using (List.mem_filter.mp hm).2
  rw [h1, h2]

theorem expand_blxy_entry {n : ℕ} {ap : ℕ → ℚ × ℚ × ℚ} {autos : Bool}
    {bi : ℕ} {g : List (ℕ × ℕ)}
    (hmem : (bi, g) ∈ (get_pos_reds n ap autos).enum) :
    (((get_pos_reds n ap autos).map fun red => red.headD (0, 0)).map
        (blVec2 ap)).getD bi (0, 0) = blVec2 ap (g.headD (0, 0)) := by
  have h1 : (get_pos_reds n ap autos)[bi]? = some g :=
    List.mk_mem_enum_iff_getElem?.mp hmem
  obtain ⟨hlt, hget⟩ := List.getElem?_eq_some_iff.mp h1
  rw [getD_map_lt _ _ _ (0, 0) bi (by simpa using hlt),
    getD_map_lt _ _ _ [] bi hlt]
  congr 1
  rw [List.getD_eq_getElem?_getD, h1]
  rfl

/-- Reshaping of the return value of `simulate` in full-expansion mode: the
result is the reindex of the accumulated loop array, frequency outermost,
wrapped according to the `polarized` flag (lines 258-263). -/
theorem simulate_expand_eq (cl : Collab) (inp : SimInputs) (prec : ℤ)
    (acc : ℚ) (pol : Bool) :
    simulate cl inp none prec pol acc =
      (blxyOf inp ((get_pos_reds inp.nants inp.antpos true).map
          fun red => red.headD (0, 0))).map fun blxy =>
        if pol then
          VisOut.expandPol fun fr t p q a b =>
            visLoopExpand cl inp pol (get_pos_reds inp.nants inp.antpos true)
              blxy acc t a b p q fr
        else
          VisOut.expandUnpol fun fr t a b =>
            visLoopExpand cl inp pol (get_pos_reds inp.nants inp.antpos true)
              blxy acc t a b 0 0 fr := by
  rw [simulate]
  cases hx : blxyOf inp ((get_pos_reds inp.nants inp.antpos true).map
      fun red => red.headD (0, 0)) with
  | none => cases pol <;> rfl
  | some blxy => cases pol <;> rfl

/-! Concrete instances used by witnesses and counterexamples. -/

/-- A concrete collaborator assignment whose transform is the exact type-3
sum and whose beam and conversion services are simple total functions. -/
noncomputable def specCollab : Collab where
  beamEval := fun _ _ _ _ _ => 0
  azza := fun tx ty => (tx, ty)
  nufft2d3 := nufft2d3Spec
  nufft3d3 := fun _ _ _ _ _ _ _ _ => fun _ => 0
  pointSourceCrdEq := fun _ _ => fun _ => (0, 0, 0)
  eciToEnuMatrix := fun _ _ => mat3Zero

/-- The identity rotation matrix. -/
def matId : Mat3 := ((1, 0, 0), (0, 1, 0), (0, 0, 1))

/-- One antenna at the origin, no sources, one time sample, one frequency. -/
def inpW1 : SimInputs where
  nants := 1
  antpos := fun _ => (0, 0, 0)
  nsrc := 0
  sources := fun _ _ => 0
  crd_eq := fun _ => (0, 0, 0)
  eq2tops := [matId]
  freqs := [1]

/-- One antenna, a single source strictly below the horizon (topocentric
z-coordinate -1 under the identity rotation), one time, one frequency. -/
def inpC3 : SimInputs where
  nants := 1
  antpos := fun _ => (0, 0, 0)
  nsrc := 1
  sources := fun _ _ => 1
  crd_eq := fun _ => (0, 0, -1)
  eq2tops := [matId]
  freqs := [1]

/-- Two antennas at distinct positions, no sources, one time sample, one
frequency channel. -/
def inpC6 : SimInputs where
  nants := 2
  antpos := fun i => if i = 0 then (0, 0, 0) else (1, 0, 0)
  nsrc := 0
  sources := fun _ _ => 0
  crd_eq := fun _ => (0, 0, 0)
  eq2tops := [matId]
  freqs := [1]

theorem dedupByVec_nil (ap : ℕ → ℚ × ℚ × ℚ) : dedupByVec ap [] = [] := by
  rw [dedupByVec]

/-- Concrete evaluation of the grouping of `inpW1`: the lone antenna gives
the single auto group. -/
theorem reds_inpW1 : get_pos_reds inpW1.nants inpW1.antpos true = [[(0, 0)]] := by
  have hp : pairList inpW1.nants true = [(0, 0)] := by decide
  have hd : dedupByVec inpW1.antpos [(0, 0)] = [(0, 0)] := by
    rw [dedupByVec,
      show (([] : List (ℕ × ℕ)).filter fun q =>
        blVec2 inpW1.antpos q ≠ blVec2 inpW1.antpos (0, 0)) = [] from rfl,
      dedupByVec_nil]
  rw [get_pos_reds, hp, hd]
  simp

/-! Claim theorems. -/

/-- C10: calling `simulate` with an empty baselines list behaves identically
to passing no baselines at all - Python `not baselines` is true for both, so
redundancy grouping runs and the full antenna-antenna expanded array is
returned rather than an empty compact array. -/
theorem claim_C10 (cl : Collab) (inp : SimInputs) (prec : ℤ) (pol : Bool)
    (acc : ℚ) :
    simulate cl inp (some []) prec pol acc = simulate cl inp none prec pol acc :=
  rfl

/-- C9: in compact mode (an explicit non-empty baselines list whose antennas
all exist), `simulate_basis` never writes the per-time transform results into
the output and returns the all-zero array of shape
`(number of baselines, number of times, number of frequencies)`, whatever
the sky model, basis axis and coordinates are. -/
theorem claim_C9 (cl : Collab) (inp : SimInputs) (eta : List ℚ)
    (B : List (ℕ × ℕ)) (prec : ℤ) (acc : ℚ) (hB : B ≠ [])
    (hvalid : ∀ bl ∈ B, bl.1 < inp.nants ∧ bl.2 < inp.nants) :
    simulate_basis cl inp eta (some B) prec acc =
      some (BasisOut.compact B.length inp.eq2tops.length inp.freqs.length
        fun _ _ _ => 0) := by
  cases B with
  | nil => exact absurd rfl hB
  | cons x xs =>
      rw [simulate_basis]
      rw [show blsFalsy (some (x :: xs)) = false from rfl]
      rw [show ((some (x :: xs)).getD ([] : List (ℕ × ℕ))) = x :: xs from rfl]
      rw [blxyOf_of_valid inp (x :: xs) hvalid]
      rfl

theorem claim_C9_witness :
    ([((0 : ℕ), (0 : ℕ))] ≠ ([] : List (ℕ × ℕ))) ∧
      simulate_basis specCollab inpW1 [] (some [(0, 0)]) 1 1 =
        some (BasisOut.compact 1 1 1 fun _ _ _ => 0) :=
  ⟨by decide,
    claim_C9 specCollab inpW1 [] [(0, 0)] 1 1 (by decide) (by decide)⟩

/-- C2 (amended): `simulate` performs no precision validation - every
precision level other than 1 selects the `(float64, complex128)` pair and
the call proceeds; only `simulate_vis`, and only when `accuracy` is not
provided, fails for a precision level outside `{1, 2}`, through the
default-accuracy dictionary lookup. -/
theorem claim_C2 :
    (∀ p : ℤ, p ≠ 1 → simDtypes p = (Dtype.f64, Dtype.c128)) ∧
    (∀ p : ℤ, p ≠ 1 → p ≠ 2 → default_accuracy_dict p = none) ∧
    (∀ (cl : Collab) (nants : ℕ) (ap : ℕ → ℚ × ℚ × ℚ)
        (src : ℕ → ℕ → ℚ) (ra dec freqs lsts : List ℚ)
        (bls : Option (List (ℕ × ℕ))) (p : ℤ) (pol : Bool) (lat : ℚ),
      p ≠ 1 → p ≠ 2 →
      simulate_vis cl nants ap src ra dec freqs lsts bls p pol lat none
        = none) := by
  refine ⟨?_, ?_, ?_⟩
  · intro p hp
    rw [simDtypes, if_neg hp]
  · intro p h1 h2
    rw [default_accuracy_dict, if_neg h1, if_neg h2]
  · intro cl nants ap src ra dec freqs lsts bls p pol lat h1 h2
    have hd : default_accuracy_dict p = none := by
      rw [default_accuracy_dict, if_neg h1, if_neg h2]
    rw [simulate_vis, hd]
    rfl

theorem claim_C2_witness :
    ((3 : ℤ) ≠ 1 ∧ simDtypes 3 = (Dtype.f64, Dtype.c128)) ∧
      simulate_vis specCollab 1 (fun _ => (0, 0, 0)) (fun _ _ => 0) [] []
        [] [] none 3 false 0 none = none :=
  ⟨⟨by decide, claim_C2.1 3 (by decide)⟩,
    claim_C2.2.2 specCollab 1 (fun _ => (0, 0, 0)) (fun _ _ => 0) [] [] [] []
      none 3 false 0 (by decide) (by decide)⟩

/-- C2 counterexample to the claim as stated: with the unsupported precision
level 3, `simulate` does produce a visibility array (the call succeeds
rather than failing with a configuration error). -/
theorem claim_C2_counterexample :
    (simulate specCollab inpW1 none 3 false 1).isSome = true := by
  rw [simulate_expand_eq]
  rw [show blxyOf inpW1 ((get_pos_reds inpW1.nants inpW1.antpos true).map
      fun red => red.headD (0, 0)) = some [((0 : ℚ), (0 : ℚ))] by
    rw [reds_inpW1]
    simp [blxyOf, inpW1, blVec2]]
  rfl

/-- C6 (code bug): the compact-mode slice assignment `vis[ti] = _vis`
(line 256) writes an array of shape `(nfeeds, nfeeds, nbls, nfreqs)` into a
slice of shape `(nbls, nfeeds, nfeeds, nfreqs)`; for an unpolarized request
of two distinct baselines numpy cannot broadcast `(1, 1, 2, 1)` into
`(2, 1, 1, 1)` and the call raises instead of returning the requested
values, so they cannot equal the full-expansion entries. -/
theorem claim_C6 (cl : Collab) (prec : ℤ) (acc : ℚ) :
    simulate cl inpC6 (some [(0, 1), (1, 0)]) prec false acc = none := by
  rfl

/-- C7: for every time sample, the positional source lists handed to the
transform are exactly the above-horizon subset - `x` is the image of the
indices with topocentric z strictly positive, the transform input length is
the count of such sources (sources with z below or at 0 are dropped, not
zero-weighted), `nsim_sources` agrees with that count, and the per-frequency
kernel passes exactly these lists to the transform invocation. -/
theorem claim_C7 (cl : Collab) (inp : SimInputs) (polarized : Bool)
    (blxy : List (ℚ × ℚ)) (acc : ℚ) (ti p q bi fi : ℕ) :
    xArg inp ti =
      (((List.range inp.nsrc).filter fun j =>
          decide (0 < (txyz inp ti j).2.2)).map
        fun j => 2 * Real.pi * (((txyz inp ti j).1 : ℚ) : ℝ)) ∧
    (xArg inp ti).length =
      ((List.range inp.nsrc).filter fun j =>
        decide (0 < (txyz inp ti j).2.2)).length ∧
    selIdx inp ti =
      ((List.range inp.nsrc).filter fun j =>
        decide (0 < (txyz inp ti j).2.2)) ∧
    nsimSources inp ti =
      ((List.range inp.nsrc).filter fun j =>
        decide (0 < (txyz inp ti j).2.2)).length ∧
    visCompactT cl inp polarized blxy acc ti p q bi fi =
      cl.nufft2d3 (xArg inp ti) (yArg inp ti) (iSky cl inp polarized ti fi)
        (uList blxy (inp.freqs.getD fi 0)) (vList blxy (inp.freqs.getD fi 0))
        acc (p * nfeedsOf polarized + q) bi := by
  refine ⟨?_, ?_, selIdx_eq inp ti, nsimSources_eq inp ti, rfl⟩
  · rw [xArg, txSel_eq, List.map_map]
    rfl
  · rw [xArg, List.length_map, txSel_eq, List.length_map]

/-- C8: the complex weight passed to the transform for each feed-pair row
and each visible source is the beam gain times its complex conjugate (the
power-beam weighting) times 0.5 times that source's intensity at the
current frequency; the row `p * nfeeds + q` corresponds to the raw beam
gain at flipped axis index `nfeeds - 1 - p` and feed `q` through the
`np.flipud` and reshape of lines 219-220. -/
theorem claim_C8 (cl : Collab) (inp : SimInputs) (polarized : Bool)
    (ti fi p q jj : ℕ) (hp : p < nfeedsOf polarized)
    (hq : q < nfeedsOf polarized) :
    iSky cl inp polarized ti fi (p * nfeedsOf polarized + q) jj =
      cl.beamEval (nfeedsOf polarized - 1 - p) q (azzaOf cl inp ti jj).1
          (azzaOf cl inp ti jj).2 (inp.freqs.getD fi 0) *
        (starRingEnd ℂ)
          (cl.beamEval (nfeedsOf polarized - 1 - p) q (azzaOf cl inp ti jj).1
            (azzaOf cl inp ti jj).2 (inp.freqs.getD fi 0)) *
        ((0.5 * inp.sources ((selIdx inp ti).getD jj 0) fi : ℚ) : ℂ) := by
  have hnf : 0 < nfeedsOf polarized := Nat.lt_of_le_of_lt (Nat.zero_le q) hq
  have hdiv : (p * nfeedsOf polarized + q) / nfeedsOf polarized = p := by
    rw [Nat.mul_comm p (nfeedsOf polarized), Nat.mul_add_div hnf,
      Nat.div_eq_of_lt hq, Nat.add_zero]
  have hmod : (p * nfeedsOf polarized + q) % nfeedsOf polarized = q := by
    rw [Nat.mul_comm p (nfeedsOf polarized), Nat.mul_add_mod,
      Nat.mod_eq_of_lt hq]
  rw [iSky, beamAsFlat, beamAs1, beamAs0, hdiv, hmod, Isky]

theorem claim_C8_witness :
    (1 < nfeedsOf true ∧ 0 < nfeedsOf true) ∧
      iSky specCollab inpW1 true 0 0 (1 * nfeedsOf true + 0) 0 =
        specCollab.beamEval (nfeedsOf true - 1 - 1) 0
            (azzaOf specCollab inpW1 0 0).1 (azzaOf specCollab inpW1 0 0).2
            (inpW1.freqs.getD 0 0) *
          (starRingEnd ℂ)
            (specCollab.beamEval (nfeedsOf true - 1 - 1) 0
              (azzaOf specCollab inpW1 0 0).1 (azzaOf specCollab inpW1 0 0).2
              (inpW1.freqs.getD 0 0)) *
          ((0.5 * inpW1.sources ((selIdx inpW1 0).getD 0 0) 0 : ℚ) : ℂ) :=
  ⟨⟨by decide, by decide⟩,
    claim_C8 specCollab inpW1 true 0 0 1 0 0 (by decide) (by decide)⟩

theorem simContrib_zero_of_visT_zero (visT : ℕ → ℕ → ℕ → ℕ → ℂ) (a b : ℕ)
    (y : ℕ × List (ℕ × ℕ)) (hvT : ∀ p q bi fi, visT p q bi fi = 0) :
    simContrib visT a b y = 0 := by
  have h0 : (fun p q fi => visT p q y.1 fi) = (0 : ℕ → ℕ → ℕ → ℂ) := by
    funext p q fi
    exact hvT p q y.1 fi
  have h1 : (fun p q fi => (starRingEnd ℂ) (visT p q y.1 fi))
      = (0 : ℕ → ℕ → ℕ → ℂ) := by
    funext p q fi
    rw [hvT]
    exact map_zero _
  rw [simContrib, h0, h1]
  simp

/-- Variant of `simulate_expand_eq` with the polarized branch resolved. -/
theorem simulate_expandPol_eq (cl : Collab) (inp : SimInputs) (prec : ℤ)
    (acc : ℚ) :
    simulate cl inp none prec true acc =
      (blxyOf inp ((get_pos_reds inp.nants inp.antpos true).map
          fun red => red.headD (0, 0))).map fun blxy =>
        VisOut.expandPol fun fr t p q a b =>
          visLoopExpand cl inp true (get_pos_reds inp.nants inp.antpos true)
            blxy acc t a b p q fr :=
  simulate_expand_eq cl inp prec acc true

/-- Variant of `simulate_expand_eq` with the unpolarized branch resolved. -/
theorem simulate_expandUnpol_eq (cl : Collab) (inp : SimInputs) (prec : ℤ)
    (acc : ℚ) :
    simulate cl inp none prec false acc =
      (blxyOf inp ((get_pos_reds inp.nants inp.antpos true).map
          fun red => red.headD (0, 0))).map fun blxy =>
        VisOut.expandUnpol fun fr t a b =>
          visLoopExpand cl inp false (get_pos_reds inp.nants inp.antpos true)
            blxy acc t a b 0 0 fr :=
  simulate_expand_eq cl inp prec acc false

theorem foldlM_compact_zero (cl : Collab) (inp : SimInputs) (pol : Bool)
    (blxy : List (ℚ × ℚ)) (acc : ℚ) (nbls ti : ℕ)
    (hz : ∀ p q bi fi, visCompactT cl inp pol blxy acc ti p q bi fi = 0) :
    ∀ (L : List ℕ) (init : ℕ → ℕ → ℕ → ℕ → ℕ → ℂ),
      (∀ b p q fi, init ti b p q fi = 0) →
      ∀ vis,
        L.foldlM (fun vis0 tj =>
          npAssignCompact nbls (nfeedsOf pol) vis0 tj
            (visCompactT cl inp pol blxy acc tj)) init = some vis →
        ∀ b p q fi, vis ti b p q fi = 0 := by
  intro L
  induction L with
  | nil =>
      intro init h0 vis h b p q fi
      rw [List.foldlM_nil] at h
      rw [← Option.some.inj h]
      exact h0 b p q fi
  | cons tj L ih =>
      intro init h0 vis h b p q fi
      rw [List.foldlM_cons] at h
      cases hstep : npAssignCompact nbls (nfeedsOf pol) init tj
          (visCompactT cl inp pol blxy acc tj) with
      | none =>
          rw [hstep] at h
          exact Option.noConfusion h
      | some s =>
          rw [hstep] at h
          refine ih s ?_ vis h b p q fi
          intro b2 p2 q2 fi2
          rw [npAssignCompact] at hstep
          by_cases hcond : ((nfeedsOf pol) = nbls ∨ (nfeedsOf pol) = 1) ∧
              (nbls = nfeedsOf pol ∨ nbls = 1)
          · rw [if_pos hcond] at hstep
            have hs := Option.some.inj hstep
            have hsv : s ti b2 p2 q2 fi2 =
                if ti = tj then
                  visCompactT cl inp pol blxy acc tj
                    (if nfeedsOf pol = 1 then 0 else b2)
                    (if nfeedsOf pol = 1 then 0 else p2)
                    (if nbls = 1 then 0 else q2) fi2
                else init ti b2 p2 q2 fi2 := by
              rw [← hs]
            rw [hsv]
            by_cases hti : ti = tj
            · rw [if_pos hti, ← hti]
              exact hz _ _ _ fi2
            · rw [if_neg hti]
              exact h0 b2 p2 q2 fi2
          · rw [if_neg hcond] at hstep
            exact Option.noConfusion hstep

theorem visLoopCompact_zero_of_below (cl : Collab) (inp : SimInputs)
    (pol : Bool) (blxy : List (ℚ × ℚ)) (acc : ℚ) (nbls ti : ℕ)
    (hN : cl.nufft2d3 = nufft2d3Spec)
    (hbelow : ∀ j, j < inp.nsrc → ¬(0 < (txyz inp ti j).2.2))
    (vis : ℕ → ℕ → ℕ → ℕ → ℕ → ℂ)
    (h : visLoopCompact cl inp pol blxy acc nbls = some vis)
    (b p q fi : ℕ) : vis ti b p q fi = 0 :=
  foldlM_compact_zero cl inp pol blxy acc nbls ti
    (fun p2 q2 bi fi2 =>
      visCompactT_zero_of_below cl inp pol blxy acc ti hN hbelow p2 q2 bi fi2)
    (List.range inp.eq2tops.length) (fun _ _ _ _ _ => 0)
    (fun _ _ _ _ => rfl) vis h b p q fi

/-- C3 (amended): at a time sample with no source above the horizon, every
visibility of that sample is exactly zero - in full-expansion mode for both
the polarized and the unpolarized layout, and likewise in compact mode
whenever an array is returned at all - but the transform is nonetheless
invoked, once per frequency channel, with an empty point list: the zero
comes from the empty type-3 sum, not from a fast-path that skips the call
(the source has no such guard). -/
theorem claim_C3 (cl : Collab) (inp : SimInputs) (prec : ℤ) (acc : ℚ)
    (ti : ℕ) (hN : cl.nufft2d3 = nufft2d3Spec)
    (hbelow : ∀ j, j < inp.nsrc → ¬(0 < (txyz inp ti j).2.2)) :
    (∀ v fr p q a b,
        simulate cl inp none prec true acc = some (VisOut.expandPol v) →
        v fr ti p q a b = 0) ∧
    (∀ w fr a b,
        simulate cl inp none prec false acc = some (VisOut.expandUnpol w) →
        w fr ti a b = 0) ∧
    (∀ (B : List (ℕ × ℕ)) v fr p q k,
        simulate cl inp (some B) prec true acc = some (VisOut.compactPol v) →
        v fr ti p q k = 0) ∧
    (∀ (B : List (ℕ × ℕ)) w fr k,
        simulate cl inp (some B) prec false acc = some (VisOut.compactUnpol w) →
        w fr ti k = 0) ∧
    (∀ fi, ti < inp.eq2tops.length → fi < inp.freqs.length →
        (ti, fi, 0) ∈ nufftInvocations inp) := by
  have hcell : ∀ (pol : Bool) (blxy : List (ℚ × ℚ)) (a b p q fr : ℕ),
      visLoopExpand cl inp pol (get_pos_reds inp.nants inp.antpos true)
        blxy acc ti a b p q fr = 0 := by
    intro pol blxy a b p q fr
    rw [visLoopExpand_eq]
    by_cases ht : ti < inp.eq2tops.length
    · rw [if_pos ht, expandStepSim_cell, sum_map_all_zero _ _ ?hz]
      case hz =>
        intro y _hy
        exact simContrib_zero_of_visT_zero _ a b y fun p2 q2 bi fi =>
          visCompactT_zero_of_below cl inp pol blxy acc ti hN hbelow p2 q2 bi fi
      rfl
    · rw [if_neg ht]
  have hempty : (txSel inp ti).length = 0 := by
    rw [txSel_eq]
    rw [List.filter_eq_nil_iff.mpr fun j hj => by
      simpa using hbelow j (List.mem_range.mp hj)]
    rfl
  refine ⟨?_, ?_, ?_, ?_, ?_⟩
  · intro v fr p q a b h
    rw [simulate_expandPol_eq] at h
    cases hx : blxyOf inp ((get_pos_reds inp.nants inp.antpos true).map
        fun red => red.headD (0, 0)) with
    | none =>
        rw [hx] at h
        exact Option.noConfusion h
    | some blxy =>
        rw [hx] at h
        simp only [Option.map_some', Option.some.injEq,
          VisOut.expandPol.injEq] at h
        rw [← h]
        exact hcell true blxy a b p q fr
  · intro w fr a b h
    rw [simulate_expandUnpol_eq] at h
    cases hx : blxyOf inp ((get_pos_reds inp.nants inp.antpos true).map
        fun red => red.headD (0, 0)) with
    | none =>
        rw [hx] at h
        exact Option.noConfusion h
    | some blxy =>
        rw [hx] at h
        simp only [Option.map_some', Option.some.injEq,
          VisOut.expandUnpol.injEq] at h
        rw [← h]
        exact hcell false blxy a b 0 0 fr
  · intro B v fr p q k h
    cases B with
    | nil =>
        rw [show simulate cl inp (some ([] : List (ℕ × ℕ))) prec true acc
              = simulate cl inp none prec true acc from rfl,
          simulate_expandPol_eq] at h
        cases hx : blxyOf inp ((get_pos_reds inp.nants inp.antpos true).map
            fun red => red.headD (0, 0)) with
        | none =>
            rw [hx] at h
            exact Option.noConfusion h
        | some blxy =>
            rw [hx] at h
            simp only [Option.map_some'] at h
            exact VisOut.noConfusion (Option.some.inj h)
    | cons x xs =>
        rw [show simulate cl inp (some (x :: xs)) prec true acc
              = (blxyOf inp (x :: xs)).bind fun blxy =>
                  (visLoopCompact cl inp true blxy acc (x :: xs).length).map
                    fun vis => VisOut.compactPol fun fr t p q k => vis t k p q fr
            from rfl] at h
        cases hbx : blxyOf inp (x :: xs) with
        | none =>
            rw [hbx] at h
            exact Option.noConfusion h
        | some blxy =>
            rw [hbx, Option.some_bind] at h
            cases hvc : visLoopCompact cl inp true blxy acc (x :: xs).length with
            | none =>
                rw [hvc] at h
                exact Option.noConfusion h
            | some vis0 =>
                rw [hvc] at h
                simp only [Option.map_some', Option.some.injEq,
                  VisOut.compactPol.injEq] at h
                rw [← h]
                exact visLoopCompact_zero_of_below cl inp true blxy acc
                  (x :: xs).length ti hN hbelow vis0 hvc k p q fr
  · intro B w fr k h
    cases B with
    | nil =>
        rw [show simulate cl inp (some ([] : List (ℕ × ℕ))) prec false acc
              = simulate cl inp none prec false acc from rfl,
          simulate_expandUnpol_eq] at h
        cases hx : blxyOf inp ((get_pos_reds inp.nants inp.antpos true).map
            fun red => red.headD (0, 0)) with
        | none =>
            rw [hx] at h
            exact Option.noConfusion h
        | some blxy =>
            rw [hx] at h
            simp only [Option.map_some'] at h
            exact VisOut.noConfusion (Option.some.inj h)
    | cons x xs =>
        rw [show simulate cl inp (some (x :: xs)) prec false acc
              = (blxyOf inp (x :: xs)).bind fun blxy =>
                  (visLoopCompact cl inp false blxy acc (x :: xs).length).map
                    fun vis => VisOut.compactUnpol fun fr t k => vis t k 0 0 fr
            from rfl] at h
        cases hbx : blxyOf inp (x :: xs) with
        | none =>
            rw [hbx] at h
            exact Option.noConfusion h
        | some blxy =>
            rw [hbx, Option.some_bind] at h
            cases hvc : visLoopCompact cl inp false blxy acc (x :: xs).length with
            | none =>
                rw [hvc] at h
                exact Option.noConfusion h
            | some vis0 =>
                rw [hvc] at h
                simp only [Option.map_some', Option.some.injEq,
                  VisOut.compactUnpol.injEq] at h
                rw [← h]
                exact visLoopCompact_zero_of_below cl inp false blxy acc
                  (x :: xs).length ti hN hbelow vis0 hvc k 0 0 fr
  · intro fi hti hfi
    rw [nufftInvocations]
    apply List.mem_flatMap.mpr
    refine ⟨ti, List.mem_range.mpr hti, ?_⟩
    apply List.mem_map.mpr
    refine ⟨fi, List.mem_range.mpr hfi, ?_⟩
    rw [hempty]

theorem claim_C3_witness : ((0 : ℕ), (0 : ℕ), (0 : ℕ)) ∈ nufftInvocations inpC3 :=
  (claim_C3 specCollab inpC3 1 1 0 rfl fun j hj => by
      have hj0 : j = 0 := by
        have h1 : j < 1 := hj
        omega
      subst hj0
      norm_num [txyz, inpC3, dot3, matId]).2.2.2.2 0 (by decide) (by decide)

/-- C3 counterexample to the claim as stated: with the single source of
`inpC3` below the horizon at the only time sample, no source index passes
the horizon filter, yet the invocation record of the transform contains a
call (time 0, frequency 0) whose input size is 0 - the transform is invoked
with empty input rather than skipped. -/
theorem claim_C3_counterexample :
    ((List.range inpC3.nsrc).filter fun j =>
        decide (0 < (txyz inpC3 0 j).2.2)) = [] ∧
      ((0 : ℕ), (0 : ℕ), (0 : ℕ)) ∈ nufftInvocations inpC3 := by
  have hf : ((List.range inpC3.nsrc).filter fun j =>
      decide (0 < (txyz inpC3 0 j).2.2)) = [] := by
    apply List.filter_eq_nil_iff.mpr
    intro j hj
    have hj0 : j = 0 := by
      have h1 : j < 1 := List.mem_range.mp hj
      omega
    subst hj0
    norm_num [txyz, inpC3, dot3, matId]
  refine ⟨hf, ?_⟩
  rw [nufftInvocations]
  apply List.mem_flatMap.mpr
  refine ⟨0, by decide, ?_⟩
  apply List.mem_map.mpr
  refine ⟨0, by decide, ?_⟩
  have hempty : (txSel inpC3 0).length = 0 := by
    rw [txSel_eq, hf]
    rfl
  rw [hempty]

theorem expand_hermitian_cell (cl : Collab) (inp : SimInputs) (pol : Bool)
    (acc : ℚ) (blxy : List (ℚ × ℚ)) (hN : cl.nufft2d3 = nufft2d3Spec)
    (hdist : ∀ i j : ℕ, i < inp.nants → j < inp.nants →
      blVec2 inp.antpos (i, j) = (0, 0) → i = j)
    (hlen : blxy.length = (get_pos_reds inp.nants inp.antpos true).length)
    (hvec : ∀ bi g, (bi, g) ∈ (get_pos_reds inp.nants inp.antpos true).enum →
      blxy.getD bi (0, 0) = blVec2 inp.antpos (g.headD (0, 0)))
    (t a b p q fr : ℕ) :
    visLoopExpand cl inp pol (get_pos_reds inp.nants inp.antpos true) blxy acc
        t b a p q fr
      = (starRingEnd ℂ)
        (visLoopExpand cl inp pol (get_pos_reds inp.nants inp.antpos true)
          blxy acc t a b p q fr) := by
  rw [visLoopExpand_eq]
  by_cases ht : t < inp.eq2tops.length
  case neg =>
    rw [if_neg ht]
    exact (map_zero (starRingEnd ℂ)).symm
  rw [if_pos ht]
  have main : ∀ x y : ℕ, x ≤ y →
      (expandStepSim (get_pos_reds inp.nants inp.antpos true)
          (visCompactT cl inp pol blxy acc t) (fun _ _ _ _ _ => 0) y x p q fr
        = (starRingEnd ℂ)
          (expandStepSim (get_pos_reds inp.nants inp.antpos true)
            (visCompactT cl inp pol blxy acc t) (fun _ _ _ _ _ => 0) x y p q fr)) ∧
      (expandStepSim (get_pos_reds inp.nants inp.antpos true)
          (visCompactT cl inp pol blxy acc t) (fun _ _ _ _ _ => 0) x y p q fr
        = (starRingEnd ℂ)
          (expandStepSim (get_pos_reds inp.nants inp.antpos true)
            (visCompactT cl inp pol blxy acc t) (fun _ _ _ _ _ => 0) y x p q fr)) := by
    intro x y hxy
    by_cases hb : x < inp.nants ∧ y < inp.nants
    · rcases Nat.lt_or_eq_of_le hxy with hlt | heq
      · have hmemP : (x, y) ∈ pairList inp.nants true :=
          mem_pairList.mpr ⟨hb.1, hb.2, Or.inl hlt⟩
        obtain ⟨bi, g, hmem, hg⟩ := exists_group hmemP
        have hc := expandCell_of_mem (visCompactT cl inp pol blxy acc t)
          hdist hmem hg hxy
        have hc2 := hc.2
        rw [if_neg (Nat.ne_of_lt hlt)] at hc2
        have h1 := congrFun (congrFun (congrFun hc.1 p) q) fr
        have h2 := congrFun (congrFun (congrFun hc2 p) q) fr
        constructor
        · rw [h2, h1]
        · rw [h2, h1, Complex.conj_conj]
      · subst heq
        have hmemP : (x, x) ∈ pairList inp.nants true :=
          mem_pairList.mpr ⟨hb.1, hb.1, Or.inr ⟨rfl, rfl⟩⟩
        obtain ⟨bi, g, hmem, hg⟩ := exists_group hmemP
        have hc := (expandCell_of_mem (visCompactT cl inp pol blxy acc t)
          hdist hmem hg (Nat.le_refl x)).1
        have h1 := congrFun (congrFun (congrFun hc p) q) fr
        have hbi_lt : bi < blxy.length := by
          rw [hlen]
          exact (List.getElem?_eq_some_iff.mp
            (List.mk_mem_enum_iff_getElem?.mp hmem)).1
        have hvec0 : blxy.getD bi (0, 0) = (0, 0) := by
          rw [hvec bi g hmem, head_vec_of_mem hmem hg, blVec2_self]
        have hreal := visCompactT_real cl inp pol blxy acc t p q bi fr hN
          hbi_lt hvec0
        exact ⟨by rw [h1]; exact hreal.symm, by rw [h1]; exact hreal.symm⟩
    · have hxy1 : (x, y) ∉ pairList inp.nants true := fun hc =>
        hb ⟨(mem_pairList.mp hc).1, (mem_pairList.mp hc).2.1⟩
      have hyx1 : (y, x) ∉ pairList inp.nants true := fun hc =>
        hb ⟨(mem_pairList.mp hc).2.1, (mem_pairList.mp hc).1⟩
      have hz1 : expandStepSim (get_pos_reds inp.nants inp.antpos true)
          (visCompactT cl inp pol blxy acc t) (fun _ _ _ _ _ => 0) x y p q fr
          = 0 := by
        have := congrFun (congrFun (congrFun
          (@expandCell_zero inp.nants inp.antpos true
            (visCompactT cl inp pol blxy acc t) x y hxy1 hyx1) p) q) fr
        simpa using this
      have hz2 : expandStepSim (get_pos_reds inp.nants inp.antpos true)
          (visCompactT cl inp pol blxy acc t) (fun _ _ _ _ _ => 0) y x p q fr
          = 0 := by
        have := congrFun (congrFun (congrFun
          (@expandCell_zero inp.nants inp.antpos true
            (visCompactT cl inp pol blxy acc t) y x hyx1 hxy1) p) q) fr
        simpa using this
      rw [hz1, hz2]
      exact ⟨(map_zero _).symm, (map_zero _).symm⟩
  rcases Nat.le_total a b with h | h
  · exact (main a b h).1
  · exact (main b a h).2

/-- C4: in full-expansion mode the returned array is Hermitian over the
two antenna axes - for every antenna pair `(a, b)`, time, frequency and
(when polarized) feed pair, the entry at `(b, a)` is the complex conjugate
of the entry at `(a, b)`.  The transform is the exact type-3 sum and the
2-D antenna positions are assumed pairwise distinct (the spec leaves
duplicate-position handling open, §9). -/
theorem claim_C4 (cl : Collab) (inp : SimInputs) (prec : ℤ) (acc : ℚ)
    (hN : cl.nufft2d3 = nufft2d3Spec)
    (hdist : ∀ i j : ℕ, i < inp.nants → j < inp.nants →
      blVec2 inp.antpos (i, j) = (0, 0) → i = j) :
    (∀ (v : ℕ → ℕ → ℕ → ℕ → ℕ → ℕ → ℂ) (fr t p q a b : ℕ),
        simulate cl inp none prec true acc = some (VisOut.expandPol v) →
        v fr t p q b a = (starRingEnd ℂ) (v fr t p q a b)) ∧
    (∀ (w : ℕ → ℕ → ℕ → ℕ → ℂ) (fr t a b : ℕ),
        simulate cl inp none prec false acc = some (VisOut.expandUnpol w) →
        w fr t b a = (starRingEnd ℂ) (w fr t a b)) := by
  have hlen : ((((get_pos_reds inp.nants inp.antpos true).map
      fun red => red.headD (0, 0)).map (blVec2 inp.antpos))).length
      = (get_pos_reds inp.nants inp.antpos true).length := by
    rw [List.length_map, List.length_map]
  have hvec : ∀ bi g,
      (bi, g) ∈ (get_pos_reds inp.nants inp.antpos true).enum →
      ((((get_pos_reds inp.nants inp.antpos true).map
        fun red => red.headD (0, 0)).map (blVec2 inp.antpos))).getD bi (0, 0)
        = blVec2 inp.antpos (g.headD (0, 0)) :=
    fun _bi _g hmem => expand_blxy_entry hmem
  constructor
  · intro v fr t p q a b h
    rw [simulate_expandPol_eq,
      blxyOf_of_valid inp _ (expand_bls_valid inp.nants inp.antpos true)] at h
    simp only [Option.map_some', Option.some.injEq,
      VisOut.expandPol.injEq] at h
    rw [← h]
    exact expand_hermitian_cell cl inp true acc _ hN hdist hlen hvec t a b p q fr
  · intro w fr t a b h
    rw [simulate_expandUnpol_eq,
      blxyOf_of_valid inp _ (expand_bls_valid inp.nants inp.antpos true)] at h
    simp only [Option.map_some', Option.some.injEq,
      VisOut.expandUnpol.injEq] at h
    rw [← h]
    exact expand_hermitian_cell cl inp false acc _ hN hdist hlen hvec t a b 0 0 fr

theorem claim_C4_witness :
    visLoopExpand specCollab inpW1 true
        (get_pos_reds inpW1.nants inpW1.antpos true)
        (((get_pos_reds inpW1.nants inpW1.antpos true).map
          fun red => red.headD (0, 0)).map (blVec2 inpW1.antpos)) 1 0 0 0 0 0 0
      = (starRingEnd ℂ)
        (visLoopExpand specCollab inpW1 true
          (get_pos_reds inpW1.nants inpW1.antpos true)
          (((get_pos_reds inpW1.nants inpW1.antpos true).map
            fun red => red.headD (0, 0)).map (blVec2 inpW1.antpos))
          1 0 0 0 0 0 0) := by
  have hd : ∀ i j : ℕ, i < inpW1.nants → j < inpW1.nants →
      blVec2 inpW1.antpos (i, j) = (0, 0) → i = j := by
    intro i j hi hj _
    have h1 : i < 1 := hi
    have h2 : j < 1 := hj
    omega
  have hsim : simulate specCollab inpW1 none 1 true 1 =
      some (VisOut.expandPol fun fr t p q a b =>
        visLoopExpand specCollab inpW1 true
          (get_pos_reds inpW1.nants inpW1.antpos true)
          (((get_pos_reds inpW1.nants inpW1.antpos true).map
            fun red => red.headD (0, 0)).map (blVec2 inpW1.antpos)) 1 t a b p q fr) := by
    rw [simulate_expandPol_eq,
      blxyOf_of_valid inpW1 _ (expand_bls_valid inpW1.nants inpW1.antpos true)]
    rfl
  have h1 := (claim_C4 specCollab inpW1 1 1 rfl hd).1
  have h2 := h1
    (fun fr t p q a b =>
      visLoopExpand specCollab inpW1 true
        (get_pos_reds inpW1.nants inpW1.antpos true)
        (((get_pos_reds inpW1.nants inpW1.antpos true).map
          fun red => red.headD (0, 0)).map (blVec2 inpW1.antpos)) 1 t a b p q fr)
    0 0 0 0 0 0
  exact h2 hsim

/-- C5: the returned array's axis order is frequency outermost, then time,
then feed-feed when polarized (collapsed away when unpolarized), then the
antenna-antenna axes (full-expansion mode) or the requested-baseline axis
(compact mode): each returned layout is exactly the stated reindexing of
the internally accumulated array `vis[t][...][f]`. -/
theorem claim_C5 (cl : Collab) (inp : SimInputs) (prec : ℤ) (acc : ℚ)
    (B : List (ℕ × ℕ)) :
    (simulate cl inp none prec true acc =
      (blxyOf inp ((get_pos_reds inp.nants inp.antpos true).map
          fun red => red.headD (0, 0))).map fun blxy =>
        VisOut.expandPol fun fr t p q a b =>
          visLoopExpand cl inp true (get_pos_reds inp.nants inp.antpos true)
            blxy acc t a b p q fr) ∧
    (simulate cl inp none prec false acc =
      (blxyOf inp ((get_pos_reds inp.nants inp.antpos true).map
          fun red => red.headD (0, 0))).map fun blxy =>
        VisOut.expandUnpol fun fr t a b =>
          visLoopExpand cl inp false (get_pos_reds inp.nants inp.antpos true)
            blxy acc t a b 0 0 fr) ∧
    (B ≠ [] → simulate cl inp (some B) prec true acc =
      (blxyOf inp B).bind fun blxy =>
        (visLoopCompact cl inp true blxy acc B.length).map fun vis =>
          VisOut.compactPol fun fr t p q k => vis t k p q fr) ∧
    (B ≠ [] → simulate cl inp (some B) prec false acc =
      (blxyOf inp B).bind fun blxy =>
        (visLoopCompact cl inp false blxy acc B.length).map fun vis =>
          VisOut.compactUnpol fun fr t k => vis t k 0 0 fr) := by
  refine ⟨simulate_expandPol_eq cl inp prec acc,
    simulate_expandUnpol_eq cl inp prec acc, ?_, ?_⟩
  · intro hB
    cases B with
    | nil => exact absurd rfl hB
    | cons x xs => rfl
  · intro hB
    cases B with
    | nil => exact absurd rfl hB
    | cons x xs => rfl

theorem claim_C5_witness :
    ([((0 : ℕ), (0 : ℕ))] ≠ ([] : List (ℕ × ℕ))) ∧
      simulate specCollab inpW1 (some [(0, 0)]) 1 false 1 =
        (blxyOf inpW1 [(0, 0)]).bind fun blxy =>
          (visLoopCompact specCollab inpW1 false blxy 1
              [((0 : ℕ), (0 : ℕ))].length).map fun vis =>
            VisOut.compactUnpol fun fr t k => vis t k 0 0 fr :=
  ⟨by decide, (claim_C5 specCollab inpW1 1 1 [(0, 0)]).2.2.2 (by decide)⟩

end FFTVis
